import Mathlib

/-!
Verification of the cached tree hasher (`tree_hash_cache.rs`) and the RPC
protocol surface (`protocol.rs`) of the repository.

The Rust code is shallowly embedded: `Vec<u8>` becomes `List Nat` (one `Nat`
per byte), `Vec<bool>` becomes `List Bool`, `usize`/`u64` become `Nat` with
explicit wrap-around where it matters, and fallible operations return
`Except Error _`.  A Rust panic (out-of-bounds indexing, `copy_from_slice`
length mismatch, `Vec::splice` with an invalid range, integer underflow) is
modelled as the distinguished outcome `Error.Panic`; it is never a success.

The hash primitive is opaque in the source (an external crate), so every
operation that hashes takes the hash function as an explicit parameter.
Definitions that embed repository code living outside the provided sources
(the `BTreeOverlay`/`BTreeSchema` file, the `resize` module, the
`int_to_bytes` crate, `RPCMethod::from` in `methods.rs`) are modelled from
the specification and say so in their doc comments.
-/

/-- Size of one chunk in bytes (`HASHSIZE` = `BYTES_PER_CHUNK` = 32 in the source). -/
def HASHSIZE : Nat := 32

/-- Alias used by the source for the chunk size. -/
def BYTES_PER_CHUNK : Nat := 32

/-- Error type of the cached-tree-hash crate (`Error` in the source), extended
with `Panic`, which models a Rust panic (it is distinct from every `Err` the
source can return and is never a success). -/
inductive Error where
  | CacheNotInitialized
  | NoSchemaForIndex (i : Nat)
  | NoBytesForRoot
  | NoBytesForChunk (c : Nat)
  | NoModifiedFieldForChunk (c : Nat)
  | BytesAreNotEvenChunks (n : Nat)
  | UnableToObtainSlices
  | UnableToGrowMerkleTree
  | UnableToShrinkMerkleTree
  | Panic
  deriving DecidableEq, Repr

/-- A half-open index range `[start, stop)`, the embedding of Rust's
`Range<usize>` (`stop` stands for the Rust field `end`, a Lean keyword). -/
structure Range where
  start : Nat
  stop : Nat
  deriving DecidableEq, Repr

/-- Embedding of `Vec::splice(s..e, repl)` (discarding the removed elements):
defined exactly when `s ≤ e ≤ l.length`; a Rust range violation panics. -/
def vecSplice (l : List α) (s e : Nat) (repl : List α) : Option (List α) :=
  if s ≤ e ∧ e ≤ l.length then some (l.take s ++ repl ++ l.drop e) else none

/-- Embedding of `slice.get(s..e)`: `some` exactly when `s ≤ e ≤ l.length`. -/
def listGetRange (l : List α) (s e : Nat) : Option (List α) :=
  if s ≤ e ∧ e ≤ l.length then some ((l.drop s).take (e - s)) else none

/-- The 32-byte window of a flat byte buffer at chunk index `c`. -/
def sliceChunk (b : List Nat) (c : Nat) : List Nat :=
  (b.drop (32 * c)).take 32

/-- Overwrite the 32-byte window at chunk index `c` with `v`
(the embedding of `copy_from_slice` into `bytes[32c..32c+32]`). -/
def writeChunk (b : List Nat) (c : Nat) (v : List Nat) : List Nat :=
  b.take (32 * c) ++ v ++ b.drop (32 * c + 32)

/-- Turn an `Option` into an `Except`, using `e` for `none`. -/
def exceptOfOption (e : Error) : Option α → Except Error α
  | some a => .ok a
  | none => .error e

/-- Modelled from the spec: `int_to_bytes32` of the external `int_to_bytes`
crate (not among the provided sources).  "Length-mixin encoding: 32 bytes,
little-endian, zero-padded"; its argument is a `u64` (the call site casts
`length as u64`), hence the reduction mod `2 ^ 64`. -/
def int_to_bytes32 (n : Nat) : List Nat :=
  (List.range 32).map (fun i => n % 2 ^ 64 / 256 ^ i % 256)

/-- Fuel-driven floor logarithm base two (`lv`, used only to lay out resize
levels; fuel keeps the recursion structural so all proofs can evaluate it). -/
def log2Aux : Nat → Nat → Nat
  | 0, _ => 0
  | fuel + 1, n => if n ≤ 1 then 0 else log2Aux fuel (n / 2) + 1

/-- Floor logarithm base two, `log2f n = ⌊log₂ n⌋` for `n ≥ 1`. -/
def log2f (n : Nat) : Nat := log2Aux n n

/-- Fuel-driven ceiling logarithm base two. -/
def clog2Aux : Nat → Nat → Nat
  | 0, _ => 0
  | fuel + 1, n => if n ≤ 1 then 0 else clog2Aux fuel ((n + 1) / 2) + 1

/-- Ceiling logarithm base two, `clog2 n = ⌈log₂ n⌉` for `n ≥ 1`. -/
def clog2 (n : Nat) : Nat := clog2Aux n n

/-- Embedding of Rust's `usize::next_power_of_two` (`0` and `1` both map to `1`). -/
def next_power_of_two (n : Nat) : Nat := 2 ^ clog2 n

/-- Modelled from the spec: `BTreeSchema` (its file is not among the provided
sources).  "A depth value and a leaf count (logical leaves), plus a flag
indicating whether the subtree mixes in its length." -/
structure BTreeSchema where
  depth : Nat
  num_leaves : Nat
  mixes_in_length : Bool
  deriving DecidableEq, Repr

/-- Modelled from the spec: `BTreeOverlay` is "a `BTreeSchema` resolved
against a concrete `chunk_index` offset". -/
structure BTreeOverlay where
  schema : BTreeSchema
  chunk_index : Nat
  deriving DecidableEq, Repr

/-- Modelled from the spec: "The number of internal nodes is
`next_power_of_two(leaves) - 1` for non-empty subtrees and `0` when leaves
is zero." -/
def BTreeSchema.num_internal_nodes (s : BTreeSchema) : Nat :=
  if s.num_leaves = 0 then 0 else next_power_of_two s.num_leaves - 1

/-- Modelled from the spec: "The height is `ceil(log2(max(leaves, 1))) + 1`." -/
def BTreeSchema.height (s : BTreeSchema) : Nat :=
  clog2 (max s.num_leaves 1) + 1

/-- Modelled from the spec: `BTreeSchema::into_overlay(chunk_index)` is pure. -/
def BTreeSchema.into_overlay (s : BTreeSchema) (chunk_index : Nat) : BTreeOverlay :=
  ⟨s, chunk_index⟩

/-- The schema of an overlay (the source's `From<BTreeOverlay> for BTreeSchema`,
used as `new_overlay.into()`). -/
def BTreeOverlay.toSchema (o : BTreeOverlay) : BTreeSchema := o.schema

/-- Number of internal nodes of the subtree described by an overlay. -/
def BTreeOverlay.num_internal_nodes (o : BTreeOverlay) : Nat :=
  o.schema.num_internal_nodes

/-- Height of the subtree described by an overlay. -/
def BTreeOverlay.height (o : BTreeOverlay) : Nat := o.schema.height

/-- Modelled from the spec:
`internal_chunk_range() = [chunk_index, chunk_index + num_internal_nodes)`. -/
def BTreeOverlay.internal_chunk_range (o : BTreeOverlay) : Range :=
  ⟨o.chunk_index, o.chunk_index + o.num_internal_nodes⟩

/-- Modelled from the spec: `internal_parents_and_children()` — "for each
internal node `p`" it yields "`(p, (2p+1, 2p+2))` in terms of local chunk
offsets added to `chunk_index`", listed for `p = 0, 1, ...` so that the
`.rev()` walk in `update_internal_nodes` visits the deepest parents first
(the spec's "bottom-up" order). -/
def BTreeOverlay.internal_parents_and_children (o : BTreeOverlay) :
    List (Nat × (Nat × Nat)) :=
  (List.range o.num_internal_nodes).map
    (fun p => (o.chunk_index + p, (o.chunk_index + 2 * p + 1, o.chunk_index + 2 * p + 2)))

/-- Modelled from the spec: `resize::nodes_in_tree_of_height`.  With the
spec's height convention (`height` counts node levels including leaves and
"internal height is therefore `height - 1`"), the internal region of a tree
of internal height `h` holds `2 ^ h - 1` nodes, which makes
`nodes_in_tree_of_height(new.height - 1)` equal to the new overlay's
internal-node count as the spec's resize case requires. -/
def nodes_in_tree_of_height (h : Nat) : Nat := 2 ^ h - 1

/-- Chunk produced at position `j` of a grown internal region: a retained
chunk keeps its old bytes, every other position is a zero chunk.  A node of
the new tree at level `lv` (root level `0`) and in-level position `pos`
retains the old node at level `lv - d` and the same position, where
`d = h1 - h0` (old nodes keep their distance from the leaves and stay
leftmost-aligned, the spec's "positionally-aligned" nodes). -/
def growChunk (old_bytes : List Nat) (d : Nat) (j : Nat) : List Nat :=
  let lv := log2f (j + 1)
  let pos := j + 1 - 2 ^ lv
  if d ≤ lv ∧ pos < 2 ^ (lv - d) ∧ (2 ^ (lv - d) - 1 + pos) * 32 + 32 ≤ old_bytes.length
  then sliceChunk old_bytes (2 ^ (lv - d) - 1 + pos)
  else List.replicate 32 0

/-- Dirty flag at position `j` of a grown internal region: retained nodes keep
their old flag, all newly-introduced nodes are dirty. -/
def growFlag (old_flags : List Bool) (d : Nat) (j : Nat) : Bool :=
  let lv := log2f (j + 1)
  let pos := j + 1 - 2 ^ lv
  if d ≤ lv ∧ pos < 2 ^ (lv - d) then old_flags.getD (2 ^ (lv - d) - 1 + pos) true
  else true

/-- Modelled from the spec: `resize::grow_merkle_tree` (`resize.rs` is not
among the provided sources).  "Returns the new internal-node bytes and dirty
flags ... Nodes whose positions exist in both trees retain their old bytes
and flags; all other new positions are zero bytes and dirty.  Returns absent
on ... inconsistent inputs." -/
def grow_merkle_tree (old_bytes : List Nat) (old_flags : List Bool) (h0 h1 : Nat) :
    Option (List Nat × List Bool) :=
  if h0 ≤ h1 ∧ old_flags.length = 2 ^ h0 - 1 ∧ old_bytes.length = (2 ^ h0 - 1) * 32 then
    some (((List.range (2 ^ h1 - 1)).map (growChunk old_bytes (h1 - h0))).flatten,
          (List.range (2 ^ h1 - 1)).map (growFlag old_flags (h1 - h0)))
  else none

/-- Chunk produced at position `j` of a shrunk internal region: every new
node survives from the old tree (level `lv + d`, same in-level position). -/
def shrinkChunk (old_bytes : List Nat) (d : Nat) (j : Nat) : List Nat :=
  let lv := log2f (j + 1)
  let pos := j + 1 - 2 ^ lv
  if (2 ^ (lv + d) - 1 + pos) * 32 + 32 ≤ old_bytes.length
  then sliceChunk old_bytes (2 ^ (lv + d) - 1 + pos)
  else List.replicate 32 0

/-- Dirty flag at position `j` of a shrunk internal region. -/
def shrinkFlag (old_flags : List Bool) (d : Nat) (j : Nat) : Bool :=
  let lv := log2f (j + 1)
  let pos := j + 1 - 2 ^ lv
  old_flags.getD (2 ^ (lv + d) - 1 + pos) true

/-- Modelled from the spec: `resize::shrink_merkle_tree` — "symmetric;
surviving positions retain bytes and flags". -/
def shrink_merkle_tree (old_bytes : List Nat) (old_flags : List Bool) (h0 h1 : Nat) :
    Option (List Nat × List Bool) :=
  if h1 ≤ h0 ∧ old_flags.length = 2 ^ h0 - 1 ∧ old_bytes.length = (2 ^ h0 - 1) * 32 then
    some (((List.range (2 ^ h1 - 1)).map (shrinkChunk old_bytes (h0 - h1))).flatten,
          (List.range (2 ^ h1 - 1)).map (shrinkFlag old_flags (h0 - h1)))
  else none

/-- The cache (`TreeHashCache` in the source): flat chunk buffer, dirty
bitmap, schema list and the two per-update cursors. -/
structure TreeHashCache where
  bytes : List Nat
  chunk_modified : List Bool
  schemas : List BTreeSchema
  chunk_index : Nat
  schema_index : Nat
  deriving DecidableEq, Repr

/-- The `Default` cache: everything empty, both counters zero. -/
def TreeHashCache.default : TreeHashCache := ⟨[], [], [], 0, 0⟩

/-- Embedding of `is_empty`: the cache has no chunks (`chunk_modified` empty). -/
def TreeHashCache.is_empty (t : TreeHashCache) : Bool := t.chunk_modified.isEmpty

/-- Embedding of `from_bytes`: reject byte buffers that are not whole chunks,
otherwise build a leaf-only cache with uniform dirty flags. -/
def TreeHashCache.from_bytes (bytes : List Nat) (initial_modified_state : Bool)
    (schema : Option BTreeSchema) : Except Error TreeHashCache :=
  if bytes.length % BYTES_PER_CHUNK > 0 then
    .error (.BytesAreNotEvenChunks bytes.length)
  else
    .ok { bytes := bytes
          chunk_modified := List.replicate (bytes.length / BYTES_PER_CHUNK) initial_modified_state
          schemas := match schema with | some s => [s] | none => []
          chunk_index := 0
          schema_index := 0 }

/-- Embedding of `get_overlay`: resolve the stored schema at `schema_index`
against the `chunk_index` offset. -/
def TreeHashCache.get_overlay (t : TreeHashCache) (schema_index chunk_index : Nat) :
    Except Error BTreeOverlay :=
  match t.schemas[schema_index]? with
  | some s => .ok (s.into_overlay chunk_index)
  | none => .error (.NoSchemaForIndex schema_index)

/-- Embedding of `reset_modifications`: zero both cursors and clear every
dirty flag. -/
def TreeHashCache.reset_modifications (t : TreeHashCache) : TreeHashCache :=
  { t with chunk_index := 0
           schema_index := 0
           chunk_modified := t.chunk_modified.map (fun _ => false) }

/-- Embedding of the private `get_chunk`: the 32-byte window at `chunk`
(the source maps the out-of-range case to `NoModifiedFieldForChunk`). -/
def TreeHashCache.get_chunk (t : TreeHashCache) (chunk : Nat) : Except Error (List Nat) :=
  if 32 * chunk + 32 ≤ t.bytes.length then .ok (sliceChunk t.bytes chunk)
  else .error (.NoModifiedFieldForChunk chunk)

/-- Embedding of `changed`: the dirty flag of `chunk`. -/
def TreeHashCache.changed (t : TreeHashCache) (chunk : Nat) : Except Error Bool :=
  match t.chunk_modified[chunk]? with
  | some b => .ok b
  | none => .error (.NoModifiedFieldForChunk chunk)

/-- Embedding of `either_modified`: whether either child chunk is dirty. -/
def TreeHashCache.either_modified (t : TreeHashCache) (children : Nat × Nat) :
    Except Error Bool := do
  let a ← t.changed children.1
  let b ← t.changed children.2
  .ok (a || b)

/-- Embedding of `hash_children`: the hash of the two child chunks
concatenated; the hash primitive is an explicit parameter. -/
def TreeHashCache.hash_children (hash : List Nat → List Nat) (t : TreeHashCache)
    (children : Nat × Nat) : Except Error (List Nat) := do
  let a ← t.get_chunk children.1
  let b ← t.get_chunk children.2
  .ok (hash (a ++ b))

/-- Embedding of `modify_chunk`: write `to` over chunk `chunk` and mark it
dirty unconditionally.  `copy_from_slice` with a wrong-length `to` and the
bare `chunk_modified[chunk]` index are Rust panics. -/
def TreeHashCache.modify_chunk (t : TreeHashCache) (chunk : Nat) (v : List Nat) :
    Except Error TreeHashCache :=
  if 32 * chunk + 32 ≤ t.bytes.length then
    if v.length = 32 then
      if chunk < t.chunk_modified.length then
        .ok { t with bytes := writeChunk t.bytes chunk v
                     chunk_modified := t.chunk_modified.set chunk true }
      else .error .Panic
    else .error .Panic
  else .error (.NoBytesForChunk chunk)

/-- Embedding of `chunk_equals`: whether the bytes at `chunk` equal `other`. -/
def TreeHashCache.chunk_equals (t : TreeHashCache) (chunk : Nat) (other : List Nat) :
    Except Error Bool := do
  let c ← t.get_chunk chunk
  .ok (c = other)

/-- Embedding of `maybe_update_chunk`: write `to` over chunk `chunk` and mark
it dirty only when the stored bytes differ from `to`. -/
def TreeHashCache.maybe_update_chunk (t : TreeHashCache) (chunk : Nat) (v : List Nat) :
    Except Error TreeHashCache := do
  let eq ← t.chunk_equals chunk v
  if eq then .ok t
  else
    if 32 * chunk + 32 ≤ t.bytes.length then
      if v.length = 32 then
        if chunk < t.chunk_modified.length then
          .ok { t with bytes := writeChunk t.bytes chunk v
                       chunk_modified := t.chunk_modified.set chunk true }
        else .error .Panic
      else .error .Panic
    else .error (.NoModifiedFieldForChunk chunk)

/-- Embedding of the private `slices`: the byte and flag windows of a chunk
range, `none` when either is out of range. -/
def TreeHashCache.slices (t : TreeHashCache) (r : Range) :
    Option (List Nat × List Bool) := do
  let b ← listGetRange t.bytes (r.start * HASHSIZE) (r.stop * HASHSIZE)
  let f ← listGetRange t.chunk_modified r.start r.stop
  pure (b, f)

/-- Embedding of `splice`: replace the chunk range by the given bytes and
flags (flags first, then bytes, as in the source). -/
def TreeHashCache.splice (t : TreeHashCache) (r : Range) (bytes : List Nat)
    (bools : List Bool) : Except Error TreeHashCache := do
  let cm ← exceptOfOption .Panic (vecSplice t.chunk_modified r.start r.stop bools)
  let b ← exceptOfOption .Panic
    (vecSplice t.bytes (r.start * HASHSIZE) (r.stop * HASHSIZE) bytes)
  .ok { t with chunk_modified := cm, bytes := b }

/-- The resize step of `replace_overlay` (the body of its
`num_internal_nodes`-differs branch): obtain the old internal-region slices,
build the new region (empty, fresh, grown or shrunk), and splice it in. -/
def replace_overlay_resize (t : TreeHashCache) (old_overlay new_overlay : BTreeOverlay) :
    Except Error TreeHashCache :=
  Except.bind
    (exceptOfOption .UnableToObtainSlices (t.slices old_overlay.internal_chunk_range))
    (fun s =>
      Except.bind
        (if new_overlay.num_internal_nodes = 0 then
          .ok (([] : List Nat), ([] : List Bool))
        else if old_overlay.num_internal_nodes = 0 then
          .ok (List.replicate (nodes_in_tree_of_height (new_overlay.height - 1) * HASHSIZE) 0,
               List.replicate (nodes_in_tree_of_height (new_overlay.height - 1)) true)
        else if new_overlay.num_internal_nodes > old_overlay.num_internal_nodes then
          exceptOfOption .UnableToGrowMerkleTree
            (grow_merkle_tree s.1 s.2 (old_overlay.height - 1) (new_overlay.height - 1))
        else
          exceptOfOption .UnableToShrinkMerkleTree
            (shrink_merkle_tree s.1 s.2 (old_overlay.height - 1) (new_overlay.height - 1)))
        (fun nw => t.splice old_overlay.internal_chunk_range nw.1 nw.2))

/-- Embedding of `replace_overlay`: resize the internal-node region when the
internal-node count changes, then swap the stored schema, returning the old
overlay. -/
def TreeHashCache.replace_overlay (t : TreeHashCache) (schema_index chunk_index : Nat)
    (new_overlay : BTreeOverlay) : Except Error (TreeHashCache × BTreeOverlay) :=
  Except.bind (t.get_overlay schema_index chunk_index) (fun old_overlay =>
    Except.bind
      (if new_overlay.num_internal_nodes ≠ old_overlay.num_internal_nodes then
        replace_overlay_resize t old_overlay new_overlay
      else .ok t)
      (fun t1 =>
        match t1.schemas[schema_index]? with
        | some old_schema =>
            .ok ({ t1 with schemas := t1.schemas.set schema_index new_overlay.toSchema },
                 old_schema.into_overlay chunk_index)
        | none => .error .Panic))

/-- Embedding of `remove_proceeding_child_schemas`: drop the run of schemas
deeper than `depth` that starts at `schema_index` (the source's final
`Vec::splice` panics when `schema_index` exceeds the schema count). -/
def TreeHashCache.remove_proceeding_child_schemas (t : TreeHashCache)
    (schema_index depth : Nat) : Except Error TreeHashCache :=
  let e := match (t.schemas.drop schema_index).findIdx? (fun o => o.depth ≤ depth) with
    | some i => i + schema_index
    | none => t.schemas.length
  match vecSplice t.schemas schema_index e [] with
  | some s => .ok { t with schemas := s }
  | none => .error .Panic

/-- One iteration of the `update_internal_nodes` loop: rehash `parent` from
its two children when either of them is dirty. -/
def TreeHashCache.update_internal_nodes_step (hash : List Nat → List Nat)
    (t : TreeHashCache) (pc : Nat × (Nat × Nat)) : Except Error TreeHashCache := do
  let m ← t.either_modified pc.2
  if m then
    let h ← TreeHashCache.hash_children hash t pc.2
    t.modify_chunk pc.1 h
  else .ok t

/-- Run the `update_internal_nodes` loop over a triple list. -/
def TreeHashCache.update_internal_nodes_go (hash : List Nat → List Nat) :
    TreeHashCache → List (Nat × (Nat × Nat)) → Except Error TreeHashCache
  | t, [] => .ok t
  | t, pc :: rest => do
      let t1 ← TreeHashCache.update_internal_nodes_step hash t pc
      TreeHashCache.update_internal_nodes_go hash t1 rest

/-- Embedding of `update_internal_nodes`: walk the overlay's
`internal_parents_and_children` in reverse (bottom-up) order, rehashing each
parent whose children are dirty. -/
def TreeHashCache.update_internal_nodes (hash : List Nat → List Nat) (t : TreeHashCache)
    (overlay : BTreeOverlay) : Except Error TreeHashCache :=
  TreeHashCache.update_internal_nodes_go hash t overlay.internal_parents_and_children.reverse

/-- Embedding of `tree_hash_root`: the first chunk of a non-empty cache. -/
def TreeHashCache.tree_hash_root (t : TreeHashCache) : Except Error (List Nat) :=
  if t.is_empty then .error .CacheNotInitialized
  else if HASHSIZE ≤ t.bytes.length then .ok (t.bytes.take HASHSIZE)
  else .error .NoBytesForRoot

/-- Embedding of `mix_in_length`: write the little-endian length into the
chunk at `r.stop`, then, when either the root chunk at `r.start` or the
length chunk is dirty, overwrite the chunk at `r.start - 1` with their hash
(`r.start - 1` underflows, i.e. panics, at `r.start = 0`). -/
def TreeHashCache.mix_in_length (hash : List Nat → List Nat) (t : TreeHashCache)
    (r : Range) (length : Nat) : Except Error TreeHashCache := do
  let t1 ← t.maybe_update_chunk r.stop (int_to_bytes32 length)
  let m ← t1.either_modified (r.start, r.stop)
  if m then
    if 1 ≤ r.start then
      let h ← TreeHashCache.hash_children hash t1 (r.start, r.stop)
      t1.modify_chunk (r.start - 1) h
    else .error .Panic
  else .ok t1

/-- Embedding of `add_length_nodes`: mark the data root dirty, insert a clean
zero chunk after and before the range, then `mix_in_length` on the shifted
range. -/
def TreeHashCache.add_length_nodes (hash : List Nat → List Nat) (t : TreeHashCache)
    (r : Range) (length : Nat) : Except Error TreeHashCache := do
  if r.start < t.chunk_modified.length then
    let t0 := { t with chunk_modified := t.chunk_modified.set r.start true }
    let b1 ← exceptOfOption .Panic
      (vecSplice t0.bytes (r.stop * HASHSIZE) (r.stop * HASHSIZE) (List.replicate HASHSIZE 0))
    let f1 ← exceptOfOption .Panic (vecSplice t0.chunk_modified r.stop r.stop [false])
    let t1 := { t0 with bytes := b1, chunk_modified := f1 }
    let b2 ← exceptOfOption .Panic
      (vecSplice t1.bytes (r.start * HASHSIZE) (r.start * HASHSIZE) (List.replicate HASHSIZE 0))
    let f2 ← exceptOfOption .Panic (vecSplice t1.chunk_modified r.start r.start [false])
    let t2 := { t1 with bytes := b2, chunk_modified := f2 }
    t2.mix_in_length hash ⟨r.start + 1, r.stop + 1⟩ length
  else .error .Panic

/-- Embedding of `update`: an empty cache is rejected, otherwise the counters
and flags are reset and the item's update routine (`update_tree_hash_cache`,
the external capability, here a function parameter) runs on the cache. -/
def TreeHashCache.update (upd : TreeHashCache → Except Error TreeHashCache)
    (t : TreeHashCache) : Except Error TreeHashCache :=
  if t.is_empty then .error .CacheNotInitialized
  else upd t.reset_modifications

/-- Embedding of `into_components`. -/
def TreeHashCache.into_components (t : TreeHashCache) :
    List Nat × List Bool × List BTreeSchema :=
  (t.bytes, t.chunk_modified, t.schemas)

/-- A monotonic counter for ordering RPC requests (`RequestId(u64)` in
`protocol.rs`).  `val` is the wrapped `u64` value. -/
structure RequestId where
  val : Nat
  deriving DecidableEq, Repr

/-- Embedding of `RequestId::increment` (`self.0 += 1`, a `u64` addition). -/
def RequestId.increment (r : RequestId) : RequestId :=
  ⟨(r.val + 1) % 2 ^ 64⟩

/-- Embedding of `RequestId::previous` (`Self(self.0 - 1)`): the `u64`
subtraction underflows at zero, which is undefined behaviour for callers
(a panic in debug builds), modelled as `none`. -/
def RequestId.previous (r : RequestId) : Option RequestId :=
  if 1 ≤ r.val then some ⟨r.val - 1⟩ else none

/-- The RPC method selector (`RPCMethod` in `methods.rs`, which is not among
the provided sources).  Modelled from the spec: "Method codes recognize
{Hello, Goodbye, BeaconBlockRoots, BeaconBlockHeaders, BeaconBlockBodies,
BeaconChainState}"; every other code maps to `Unknown`. -/
inductive RPCMethod where
  | Hello
  | Goodbye
  | BeaconBlockRoots
  | BeaconBlockHeaders
  | BeaconBlockBodies
  | BeaconChainState
  | Unknown
  deriving DecidableEq, Repr

/-- Error type of the RPC decode path (`DecodeError` in `protocol.rs`);
payload details of the first two constructors are irrelevant here. -/
inductive DecodeError where
  | ReadError
  | SSZDecodeError
  | UnknownRPCMethod
  deriving DecidableEq, Repr

/-- Modelled from the spec: opaque SSZ payload of a decoded RPC body (the
concrete message types live in `methods.rs`, outside the provided sources). -/
structure RPCPayload where
  data : List Nat
  deriving DecidableEq, Repr

/-- A decoded request body (`RPCRequest`); payloads are opaque. -/
inductive RPCRequest where
  | Hello (msg : RPCPayload)
  | Goodbye (reason : RPCPayload)
  | BeaconBlockRoots (req : RPCPayload)
  | BeaconBlockHeaders (req : RPCPayload)
  | BeaconBlockBodies (req : RPCPayload)
  | BeaconChainState (req : RPCPayload)
  deriving DecidableEq, Repr

/-- A decoded response body (`RPCResponse`); note there is no `Goodbye`
response variant. -/
inductive RPCResponse where
  | Hello (msg : RPCPayload)
  | BeaconBlockRoots (res : RPCPayload)
  | BeaconBlockHeaders (res : RPCPayload)
  | BeaconBlockBodies (res : RPCPayload)
  | BeaconChainState (res : RPCPayload)
  deriving DecidableEq, Repr

/-- The decoded RPC event (`RPCEvent` in `protocol.rs`). -/
inductive RPCEvent where
  | Request (id : RequestId) (method_id : Nat) (body : RPCRequest)
  | Response (id : RequestId) (method_id : Nat) (result : RPCResponse)
  deriving DecidableEq, Repr

/-- The id carried by a decoded event. -/
def RPCEvent.event_id : RPCEvent → RequestId
  | .Request id _ _ => id
  | .Response id _ _ => id

/-- The method code carried by a decoded event. -/
def RPCEvent.method_id : RPCEvent → Nat
  | .Request _ m _ => m
  | .Response _ m _ => m

/-- The decoded framing container (`SszContainer` in `protocol.rs`):
request flag, 64-bit id, 16-bit method code (`other`) and the payload. -/
structure SszContainer where
  is_request : Bool
  id : Nat
  other : Nat
  bytes : List Nat
  deriving DecidableEq, Repr

/-- The SSZ body parsers (`T::from_ssz_bytes` for each message type of
`methods.rs`): external code, taken as parameters; `none` stands for an SSZ
decoding failure, which `decode` converts into `SSZDecodeError`. -/
structure RPCParsers where
  helloMessage : List Nat → Option RPCPayload
  goodbyeReason : List Nat → Option RPCPayload
  blockRootsReq : List Nat → Option RPCPayload
  blockHeadersReq : List Nat → Option RPCPayload
  blockBodiesReq : List Nat → Option RPCPayload
  chainStateReq : List Nat → Option RPCPayload
  blockRootsRes : List Nat → Option RPCPayload
  blockHeadersRes : List Nat → Option RPCPayload
  blockBodiesRes : List Nat → Option RPCPayload
  chainStateRes : List Nat → Option RPCPayload

/-- Lift a parser result, mapping SSZ failure to `SSZDecodeError` (the `?`
conversion in the source). -/
def parseOr (p : Option RPCPayload) (k : RPCPayload → RPCEvent) :
    Except DecodeError RPCEvent :=
  match p with
  | some m => .ok (k m)
  | none => .error .SSZDecodeError

/-- Embedding of `decode` in `protocol.rs`: dispatch on the request flag and
the method code; unknown codes are rejected, and a `Goodbye` response is
rejected as well.  `method_from` stands for `RPCMethod::from(u16)`
(modelled from the spec, which fixes the recognized set but not the
numbering). -/
def decode (P : RPCParsers) (method_from : Nat → RPCMethod) (msg : SszContainer) :
    Except DecodeError RPCEvent :=
  if msg.is_request then
    match method_from msg.other with
    | .Hello => parseOr (P.helloMessage msg.bytes)
        (fun m => .Request ⟨msg.id⟩ msg.other (.Hello m))
    | .Goodbye => parseOr (P.goodbyeReason msg.bytes)
        (fun m => .Request ⟨msg.id⟩ msg.other (.Goodbye m))
    | .BeaconBlockRoots => parseOr (P.blockRootsReq msg.bytes)
        (fun m => .Request ⟨msg.id⟩ msg.other (.BeaconBlockRoots m))
    | .BeaconBlockHeaders => parseOr (P.blockHeadersReq msg.bytes)
        (fun m => .Request ⟨msg.id⟩ msg.other (.BeaconBlockHeaders m))
    | .BeaconBlockBodies => parseOr (P.blockBodiesReq msg.bytes)
        (fun m => .Request ⟨msg.id⟩ msg.other (.BeaconBlockBodies m))
    | .BeaconChainState => parseOr (P.chainStateReq msg.bytes)
        (fun m => .Request ⟨msg.id⟩ msg.other (.BeaconChainState m))
    | .Unknown => .error .UnknownRPCMethod
  else
    match method_from msg.other with
    | .Hello => parseOr (P.helloMessage msg.bytes)
        (fun m => .Response ⟨msg.id⟩ msg.other (.Hello m))
    | .BeaconBlockRoots => parseOr (P.blockRootsRes msg.bytes)
        (fun m => .Response ⟨msg.id⟩ msg.other (.BeaconBlockRoots m))
    | .BeaconBlockHeaders => parseOr (P.blockHeadersRes msg.bytes)
        (fun m => .Response ⟨msg.id⟩ msg.other (.BeaconBlockHeaders m))
    | .BeaconBlockBodies => parseOr (P.blockBodiesRes msg.bytes)
        (fun m => .Response ⟨msg.id⟩ msg.other (.BeaconBlockBodies m))
    | .BeaconChainState => parseOr (P.chainStateRes msg.bytes)
        (fun m => .Response ⟨msg.id⟩ msg.other (.BeaconChainState m))
    | .Goodbye => .error .UnknownRPCMethod
    | .Unknown => .error .UnknownRPCMethod

/-- Alignment invariant of the cache (spec §3/§8): the byte buffer is whole
chunks and the dirty bitmap has one flag per chunk. -/
def CacheAligned (t : TreeHashCache) : Prop :=
  t.bytes.length % HASHSIZE = 0 ∧ t.chunk_modified.length * HASHSIZE = t.bytes.length

/-- Observable description of one `maybe_update_chunk` call: the stored chunk
is read, and the cache is written and the chunk dirtied only when the stored
bytes differ from `v`; no other chunk, flag or field moves. -/
def MaybeUpdateSpec (s : TreeHashCache) (c : Nat) (v : List Nat)
    (s' : TreeHashCache) : Prop :=
  ∃ old, s.get_chunk c = .ok old ∧
    if old = v then s' = s
    else
      s'.get_chunk c = .ok v ∧ s'.changed c = .ok true ∧
      (∀ q, q ≠ c → s'.get_chunk q = s.get_chunk q) ∧
      (∀ q, q ≠ c → s'.changed q = s.changed q) ∧
      s'.bytes.length = s.bytes.length ∧
      s'.chunk_modified.length = s.chunk_modified.length ∧
      s'.schemas = s.schemas ∧ s'.chunk_index = s.chunk_index ∧
      s'.schema_index = s.schema_index

/-- Observable description of one parent visit of the internal-node walk:
the parent `p` is rehashed from its children `l`, `r` exactly when either
child is dirty; a rehashed parent holds `hash(left ‖ right)` and is dirty,
everything else is untouched; with two clean children the state is
byte-for-byte unchanged. -/
def RehashStep (hash : List Nat → List Nat) (s s' : TreeHashCache)
    (p l r : Nat) : Prop :=
  ∃ dl dr, s.changed l = .ok dl ∧ s.changed r = .ok dr ∧
    if dl || dr then
      ∃ cl cr, s.get_chunk l = .ok cl ∧ s.get_chunk r = .ok cr ∧
        s'.changed p = .ok true ∧ s'.get_chunk p = .ok (hash (cl ++ cr)) ∧
        (∀ q, q ≠ p → s'.changed q = s.changed q) ∧
        (∀ q, q ≠ p → s'.get_chunk q = s.get_chunk q) ∧
        s'.bytes.length = s.bytes.length ∧
        s'.chunk_modified.length = s.chunk_modified.length ∧
        s'.schemas = s.schemas ∧ s'.chunk_index = s.chunk_index ∧
        s'.schema_index = s.schema_index
    else s' = s

/-- A run of the internal-node walk over a triple list, step by step. -/
def RehashTrace (hash : List Nat → List Nat) :
    TreeHashCache → List (Nat × (Nat × Nat)) → TreeHashCache → Prop
  | s, [], s' => s' = s
  | s, pc :: rest, s' => ∃ s1, RehashStep hash s s1 pc.1 pc.2.1 pc.2.2 ∧
      RehashTrace hash s1 rest s'

/-- Pointwise view of `writeChunk`. -/
theorem writeChunk_getElem? {b v : List Nat} {c : Nat}
    (hb : 32 * c + 32 ≤ b.length) (hv : v.length = 32) (i : Nat) :
    (writeChunk b c v)[i]? =
      if 32 * c ≤ i ∧ i < 32 * c + 32 then v[i - 32 * c]? else b[i]? := by
  unfold writeChunk
  have hlen : (b.take (32 * c)).length = 32 * c := by
    simp [List.length_take]; omega
  have hlen2 : (b.take (32 * c) ++ v).length = 32 * c + 32 := by
    simp [hlen, hv]
  rw [List.getElem?_append, List.getElem?_append, hlen2, hlen, List.getElem?_take,
    List.getElem?_drop]
  by_cases h1 : i < 32 * c
  · rw [if_pos (by omega), if_pos h1, if_pos h1, if_neg (by omega)]
  · by_cases h2 : i < 32 * c + 32
    · rw [if_pos h2, if_neg h1, if_pos (by omega)]
    · rw [if_neg h2, if_neg (by omega)]
      congr 1
      omega

/-- `writeChunk` preserves the buffer length. -/
theorem writeChunk_length {b v : List Nat} {c : Nat}
    (hb : 32 * c + 32 ≤ b.length) (hv : v.length = 32) :
    (writeChunk b c v).length = b.length := by
  unfold writeChunk
  simp [List.length_take, List.length_drop]
  omega

/-- Two buffers agreeing pointwise on a 32-byte window have the same chunk. -/
theorem sliceChunk_congr {b1 b2 : List Nat} {q1 q2 : Nat}
    (h : ∀ i, i < 32 → b1[32 * q1 + i]? = b2[32 * q2 + i]?) :
    sliceChunk b1 q1 = sliceChunk b2 q2 := by
  apply List.ext_getElem?
  intro n
  unfold sliceChunk
  rw [List.getElem?_take, List.getElem?_take]
  by_cases hn : n < 32
  · simp only [hn, if_pos]
    rw [List.getElem?_drop, List.getElem?_drop]
    exact h n hn
  · simp [hn]

/-- Reading back the chunk just written. -/
theorem sliceChunk_writeChunk_self {b v : List Nat} {c : Nat}
    (hb : 32 * c + 32 ≤ b.length) (hv : v.length = 32) :
    sliceChunk (writeChunk b c v) c = v := by
  apply List.ext_getElem?
  intro n
  unfold sliceChunk
  rw [List.getElem?_take]
  by_cases hn : n < 32
  · rw [if_pos hn, List.getElem?_drop, writeChunk_getElem? hb hv, if_pos (by omega)]
    congr 1
    omega
  · rw [if_neg hn]
    exact (List.getElem?_eq_none (by omega)).symm

/-- Writing one chunk leaves every other chunk unchanged. -/
theorem sliceChunk_writeChunk_ne {b v : List Nat} {c q : Nat}
    (hb : 32 * c + 32 ≤ b.length) (hv : v.length = 32) (hqc : q ≠ c) :
    sliceChunk (writeChunk b c v) q = sliceChunk b q := by
  apply sliceChunk_congr
  intro i hi
  rw [writeChunk_getElem? hb hv]
  rw [if_neg]
  rcases Nat.lt_or_ge q c with h | h
  · omega
  · have : c < q := by omega
    omega

/-- Computation rule for `Except` bind on a success. -/
@[simp] theorem ok_bind {α β : Type} (a : α) (f : α → Except Error β) :
    (do let x ← Except.ok a; f x) = f a := rfl

/-- Computation rule for `Except` bind on an error. -/
@[simp] theorem error_bind {α β : Type} (e : Error) (f : α → Except Error β) :
    (do let x ← (Except.error e : Except Error α); f x) = Except.error e := rfl

/-- Successful `modify_chunk`, structurally: the guards held and the result
is the written record. -/
theorem modify_chunk_ok {t t' : TreeHashCache} {c : Nat} {v : List Nat}
    (h : t.modify_chunk c v = .ok t') :
    32 * c + 32 ≤ t.bytes.length ∧ v.length = 32 ∧ c < t.chunk_modified.length ∧
    t' = { t with bytes := writeChunk t.bytes c v
                  chunk_modified := t.chunk_modified.set c true } := by
  unfold TreeHashCache.modify_chunk at h
  split at h
  case isTrue h1 =>
    split at h
    case isTrue h2 =>
      split at h
      case isTrue h3 =>
        cases h
        exact ⟨h1, h2, h3, rfl⟩
      case isFalse h3 => cases h
    case isFalse h2 => cases h
  case isFalse h1 => cases h

/-- Successful `modify_chunk`, observably: the chunk now holds `v` and is
dirty, and nothing else moved. -/
theorem modify_chunk_spec {t t' : TreeHashCache} {c : Nat} {v : List Nat}
    (h : t.modify_chunk c v = .ok t') :
    t'.changed c = .ok true ∧ t'.get_chunk c = .ok v ∧
    (∀ q, q ≠ c → t'.changed q = t.changed q) ∧
    (∀ q, q ≠ c → t'.get_chunk q = t.get_chunk q) ∧
    t'.bytes.length = t.bytes.length ∧
    t'.chunk_modified.length = t.chunk_modified.length ∧
    t'.schemas = t.schemas ∧ t'.chunk_index = t.chunk_index ∧
    t'.schema_index = t.schema_index := by
  obtain ⟨h1, h2, h3, ht⟩ := modify_chunk_ok h
  subst ht
  have hblen : (writeChunk t.bytes c v).length = t.bytes.length :=
    writeChunk_length h1 h2
  refine ⟨?_, ?_, ?_, ?_, hblen, List.length_set _ _ _, rfl, rfl, rfl⟩
  · simp [TreeHashCache.changed, List.getElem?_set_self h3]
  · simp only [TreeHashCache.get_chunk, hblen, h1, if_pos]
    rw [sliceChunk_writeChunk_self h1 h2]
  · intro q hq
    simp [TreeHashCache.changed, List.getElem?_set_ne (Ne.symm hq)]
  · intro q hq
    simp only [TreeHashCache.get_chunk, hblen]
    by_cases hg : 32 * q + 32 ≤ t.bytes.length
    · rw [if_pos hg, if_pos hg, sliceChunk_writeChunk_ne h1 h2 hq]
    · rw [if_neg hg, if_neg hg]

/-- Successful `maybe_update_chunk` satisfies its observable description. -/
theorem maybe_update_chunk_spec {t t' : TreeHashCache} {c : Nat} {v : List Nat}
    (h : t.maybe_update_chunk c v = .ok t') : MaybeUpdateSpec t c v t' := by
  unfold TreeHashCache.maybe_update_chunk TreeHashCache.chunk_equals at h
  cases hg : t.get_chunk c with
  | error e => rw [hg] at h; cases h
  | ok old =>
    rw [hg] at h
    simp only [ok_bind] at h
    refine ⟨old, hg, ?_⟩
    by_cases he : old = v
    · rw [if_pos (by simp [he])] at h
      cases h
      simp [he]
    · rw [if_neg (by simp [he])] at h
      rw [if_neg he]
      split at h
      next h1 =>
        split at h
        next h2 =>
          split at h
          next h3 =>
            cases h
            have hblen : (writeChunk t.bytes c v).length = t.bytes.length :=
              writeChunk_length h1 h2
            refine ⟨?_, ?_, ?_, ?_, hblen, List.length_set _ _ _, rfl, rfl, rfl⟩
            · simp only [TreeHashCache.get_chunk, hblen, h1, if_pos]
              rw [sliceChunk_writeChunk_self h1 h2]
            · simp [TreeHashCache.changed, List.getElem?_set_self h3]
            · intro q hq
              simp only [TreeHashCache.get_chunk, hblen]
              by_cases hgq : 32 * q + 32 ≤ t.bytes.length
              · rw [if_pos hgq, if_pos hgq, sliceChunk_writeChunk_ne h1 h2 hq]
              · rw [if_neg hgq, if_neg hgq]
            · intro q hq
              simp [TreeHashCache.changed, List.getElem?_set_ne (Ne.symm hq)]
          next h3 => cases h
        next h2 => cases h
      next h1 => cases h

/-- One successful iteration of the internal-node walk satisfies `RehashStep`. -/
theorem update_internal_nodes_step_spec {hash : List Nat → List Nat}
    {t t' : TreeHashCache} {pc : Nat × (Nat × Nat)}
    (h : TreeHashCache.update_internal_nodes_step hash t pc = .ok t') :
    RehashStep hash t t' pc.1 pc.2.1 pc.2.2 := by
  obtain ⟨p, l, r⟩ := pc
  unfold TreeHashCache.update_internal_nodes_step TreeHashCache.either_modified at h
  dsimp only at h
  cases hl : t.changed l with
  | error e => rw [hl] at h; cases h
  | ok dl =>
    rw [hl] at h
    simp only [ok_bind] at h
    cases hr : t.changed r with
    | error e => rw [hr] at h; cases h
    | ok dr =>
      rw [hr] at h
      simp only [ok_bind] at h
      refine ⟨dl, dr, hl, hr, ?_⟩
      by_cases hb : (dl || dr) = true
      · rw [if_pos hb] at h
        rw [if_pos hb]
        unfold TreeHashCache.hash_children at h
        cases hcl : t.get_chunk l with
        | error e => rw [hcl] at h; cases h
        | ok cl =>
          rw [hcl] at h
          simp only [ok_bind] at h
          cases hcr : t.get_chunk r with
          | error e => rw [hcr] at h; cases h
          | ok cr =>
            rw [hcr] at h
            simp only [ok_bind] at h
            obtain ⟨hc1, hc2, hc3, hc4, hc5, hc6, hc7, hc8, hc9⟩ :=
              modify_chunk_spec h
            exact ⟨cl, cr, rfl, rfl, hc1, hc2, hc3, hc4, hc5, hc6, hc7, hc8, hc9⟩
      · rw [if_neg hb] at h
        rw [if_neg hb]
        cases h
        rfl

/-- A successful run of the internal-node loop yields a `RehashTrace`. -/
theorem update_internal_nodes_go_trace {hash : List Nat → List Nat} :
    ∀ (L : List (Nat × (Nat × Nat))) (t t' : TreeHashCache),
      TreeHashCache.update_internal_nodes_go hash t L = .ok t' →
      RehashTrace hash t L t' := by
  intro L
  induction L with
  | nil =>
    intro t t' h
    cases h
    rfl
  | cons pc rest ih =>
    intro t t' h
    unfold TreeHashCache.update_internal_nodes_go at h
    cases hs : TreeHashCache.update_internal_nodes_step hash t pc with
    | error e => rw [hs] at h; cases h
    | ok t1 =>
      rw [hs] at h
      simp only [ok_bind] at h
      exact ⟨t1, update_internal_nodes_step_spec hs, ih t1 t' h⟩

/-- A successful `mix_in_length` decomposes into the length-chunk update
followed by one `RehashStep` of the mixed-in root at `r.start - 1` with
children `(r.start, r.stop)`. -/
theorem mix_in_length_split {hash : List Nat → List Nat} {t t' : TreeHashCache}
    {r : Range} {n : Nat}
    (h : TreeHashCache.mix_in_length hash t r n = .ok t') :
    ∃ t1, t.maybe_update_chunk r.stop (int_to_bytes32 n) = .ok t1 ∧
      RehashStep hash t1 t' (r.start - 1) r.start r.stop := by
  unfold TreeHashCache.mix_in_length at h
  cases hm : t.maybe_update_chunk r.stop (int_to_bytes32 n) with
  | error e => rw [hm] at h; cases h
  | ok t1 =>
    rw [hm] at h
    simp only [ok_bind] at h
    refine ⟨t1, rfl, ?_⟩
    unfold TreeHashCache.either_modified at h
    dsimp only at h
    cases hl : t1.changed r.start with
    | error e => rw [hl] at h; cases h
    | ok dl =>
      rw [hl] at h
      simp only [ok_bind] at h
      cases hr : t1.changed r.stop with
      | error e => rw [hr] at h; cases h
      | ok dr =>
        rw [hr] at h
        simp only [ok_bind] at h
        refine ⟨dl, dr, hl, hr, ?_⟩
        by_cases hb : (dl || dr) = true
        · rw [if_pos hb] at h
          rw [if_pos hb]
          split at h
          next hstart =>
            unfold TreeHashCache.hash_children at h
            cases hcl : t1.get_chunk r.start with
            | error e => rw [hcl] at h; cases h
            | ok cl =>
              rw [hcl] at h
              simp only [ok_bind] at h
              cases hcr : t1.get_chunk r.stop with
              | error e => rw [hcr] at h; cases h
              | ok cr =>
                rw [hcr] at h
                simp only [ok_bind] at h
                obtain ⟨hc1, hc2, hc3, hc4, hc5, hc6, hc7, hc8, hc9⟩ :=
                  modify_chunk_spec h
                exact ⟨cl, cr, rfl, rfl, hc1, hc2, hc3, hc4, hc5, hc6, hc7, hc8, hc9⟩
          next hstart => cases h
        · rw [if_neg hb] at h
          rw [if_neg hb]
          cases h
          rfl

/-- An all-zero chunk. -/
def zeroChunk : List Nat := List.replicate 32 0

/-- A concrete stand-in hash function for witnesses (the theorems hold for
every hash function). -/
def hashOnes : List Nat → List Nat := fun _ => List.replicate 32 1

/-- A three-chunk, all-clean, all-zero cache used by witnesses. -/
def cache3 : TreeHashCache :=
  ⟨List.replicate 96 0, [false, false, false], [], 0, 0⟩

/-- A three-chunk cache whose chunk 0 is already dirty. -/
def cacheDirtyRoot : TreeHashCache :=
  ⟨List.replicate 96 0, [true, false, false], [], 0, 0⟩

/-- An overlay for a two-leaf subtree rooted at chunk 0 (one internal node). -/
def overlay2 : BTreeOverlay := BTreeSchema.into_overlay ⟨0, 2, false⟩ 0

/-- C1: a successful `mix_in_length(range, len)` with `range.start ≥ 1` first
sets the chunk at `range.stop` to the 32-byte little-endian encoding of `len`
via `maybe_update_chunk` (so it is written and dirtied only if it differs),
and then, exactly when either the chunk at `range.start` or the chunk at
`range.stop` is dirty at that point, overwrites the chunk at `range.start - 1`
with `hash(chunk[range.start] ‖ chunk[range.stop])` and marks it dirty,
leaving everything else unchanged; with both chunks clean the state after the
length update is returned unchanged. -/
theorem mix_in_length_correct (hash : List Nat → List Nat) (t : TreeHashCache)
    (r : Range) (n : Nat) (t' : TreeHashCache)
    (hstart : 1 ≤ r.start)
    (h : TreeHashCache.mix_in_length hash t r n = .ok t') :
    ∃ t1, t.maybe_update_chunk r.stop (int_to_bytes32 n) = .ok t1 ∧
      MaybeUpdateSpec t r.stop (int_to_bytes32 n) t1 ∧
      t1.get_chunk r.stop = .ok (int_to_bytes32 n) ∧
      RehashStep hash t1 t' (r.start - 1) r.start r.stop := by
  obtain ⟨t1, hm, hs⟩ := mix_in_length_split h
  have hmu := maybe_update_chunk_spec hm
  refine ⟨t1, hm, hmu, ?_, hs⟩
  obtain ⟨old, hold, hrest⟩ := hmu
  by_cases he : old = int_to_bytes32 n
  · rw [if_pos he] at hrest
    rw [hrest, hold, he]
  · rw [if_neg he] at hrest
    exact hrest.1

/-- Witness for C1 at a concrete input: mixing length `0` into an all-zero,
all-clean cache succeeds (and changes nothing, since the length chunk already
holds the encoding of `0` and both children are clean). -/
theorem mix_in_length_correct_witness :
    (1 ≤ (1 : Nat) ∧
      TreeHashCache.mix_in_length hashOnes cache3 ⟨1, 2⟩ 0 = .ok cache3) ∧
    ∃ t1, cache3.maybe_update_chunk 2 (int_to_bytes32 0) = .ok t1 ∧
      MaybeUpdateSpec cache3 2 (int_to_bytes32 0) t1 ∧
      t1.get_chunk 2 = .ok (int_to_bytes32 0) ∧
      RehashStep hashOnes t1 cache3 0 1 2 :=
  ⟨⟨by decide, by rfl⟩,
    mix_in_length_correct hashOnes cache3 ⟨1, 2⟩ 0 cache3 (by decide) (by rfl)⟩

/-- C2 (amended): a successful `update_internal_nodes(overlay)` is exactly the
bottom-up walk of the overlay's `internal_parents_and_children` in which each
parent is rehashed (written with `hash(left ‖ right)` and marked dirty) iff
either of its two children is dirty when it is visited, and a parent with two
clean children is left byte-for-byte unchanged with its dirty flag unchanged
(the original claim's "and clean" fails when the parent was already dirty
before the walk). -/
theorem update_internal_nodes_correct (hash : List Nat → List Nat)
    (t : TreeHashCache) (o : BTreeOverlay) (t' : TreeHashCache)
    (h : TreeHashCache.update_internal_nodes hash t o = .ok t') :
    RehashTrace hash t o.internal_parents_and_children.reverse t' :=
  update_internal_nodes_go_trace _ _ _ h

/-- Witness for C2 at a concrete input: on an all-clean three-chunk cache the
walk of a one-internal-node overlay succeeds and changes nothing. -/
theorem update_internal_nodes_correct_witness :
    (TreeHashCache.update_internal_nodes hashOnes cache3 overlay2 = .ok cache3) ∧
    RehashTrace hashOnes cache3 overlay2.internal_parents_and_children.reverse cache3 :=
  ⟨by rfl, update_internal_nodes_correct hashOnes cache3 overlay2 cache3 (by rfl)⟩

/-- Counterexample to C2 as stated: on a cache whose chunk 0 is already dirty
and whose chunks 1 and 2 (the two children) are clean, `update_internal_nodes`
succeeds without touching anything, yet the parent chunk 0 — a parent "with
two clean children" — is not clean afterwards, contradicting the claim that
such parents are "left byte-for-byte unchanged and clean". -/
theorem update_internal_nodes_dirty_parent_stays_dirty :
    TreeHashCache.update_internal_nodes hashOnes cacheDirtyRoot overlay2 =
      .ok cacheDirtyRoot ∧
    cacheDirtyRoot.changed 1 = .ok false ∧
    cacheDirtyRoot.changed 2 = .ok false ∧
    cacheDirtyRoot.changed 0 = .ok true :=
  ⟨by rfl, by rfl, by rfl, by rfl⟩

/-- A successful `parseOr` comes from a successful parse. -/
theorem parseOr_ok {p : Option RPCPayload} {k : RPCPayload → RPCEvent} {ev : RPCEvent}
    (h : parseOr p k = .ok ev) : ∃ m, p = some m ∧ ev = k m := by
  cases p with
  | none => cases h
  | some m =>
    refine ⟨m, rfl, ?_⟩
    unfold parseOr at h
    cases h
    rfl

/-- A successful `get_overlay` resolves the stored schema. -/
theorem get_overlay_ok {t : TreeHashCache} {si ci : Nat} {o : BTreeOverlay}
    (h : t.get_overlay si ci = .ok o) :
    ∃ s, t.schemas[si]? = some s ∧ o = s.into_overlay ci := by
  unfold TreeHashCache.get_overlay at h
  cases hs : t.schemas[si]? with
  | none => rw [hs] at h; cases h
  | some s => rw [hs] at h; cases h; exact ⟨s, rfl, rfl⟩

/-- A defined `vecSplice` means the range was valid, and gives the result
shape. -/
theorem vecSplice_some {l out repl : List α} {s e : Nat}
    (h : vecSplice l s e repl = some out) :
    s ≤ e ∧ e ≤ l.length ∧ out = l.take s ++ repl ++ l.drop e := by
  unfold vecSplice at h
  split at h
  next h1 =>
    cases h
    exact ⟨h1.1, h1.2, rfl⟩
  next h1 => cases h

/-- Structure of a successful `splice`: guards held, and the flag and byte
sequences are the three-way concatenations; schemas and counters are kept. -/
theorem splice_ok {t t' : TreeHashCache} {r : Range} {nb : List Nat} {nf : List Bool}
    (h : t.splice r nb nf = .ok t') :
    r.start ≤ r.stop ∧ r.stop ≤ t.chunk_modified.length ∧
    r.stop * HASHSIZE ≤ t.bytes.length ∧
    t'.chunk_modified = t.chunk_modified.take r.start ++ nf ++ t.chunk_modified.drop r.stop ∧
    t'.bytes = t.bytes.take (r.start * HASHSIZE) ++ nb ++ t.bytes.drop (r.stop * HASHSIZE) ∧
    t'.schemas = t.schemas ∧ t'.chunk_index = t.chunk_index ∧
    t'.schema_index = t.schema_index := by
  unfold TreeHashCache.splice at h
  cases h1 : vecSplice t.chunk_modified r.start r.stop nf with
  | none => rw [h1] at h; cases h
  | some cm =>
    rw [h1] at h
    simp only [exceptOfOption, ok_bind] at h
    cases h2 : vecSplice t.bytes (r.start * HASHSIZE) (r.stop * HASHSIZE) nb with
    | none => rw [h2] at h; cases h
    | some b =>
      rw [h2] at h
      simp only [exceptOfOption, ok_bind] at h
      cases h
      obtain ⟨h1a, h1b, h1c⟩ := vecSplice_some h1
      obtain ⟨h2a, h2b, h2c⟩ := vecSplice_some h2
      exact ⟨h1a, h1b, h2b, h1c, h2c, rfl, rfl, rfl⟩

/-- Dropping up to the first index satisfying `p` is `dropWhile` of `¬ p`. -/
theorem drop_findIdx?_getD (p : α → Bool) :
    ∀ l : List α, l.drop ((l.findIdx? p).getD l.length) =
      l.dropWhile (fun a => ! p a) := by
  intro l
  induction l with
  | nil => rfl
  | cons a m ih =>
    rw [List.findIdx?_cons, List.dropWhile_cons]
    by_cases hp : p a = true
    · rw [if_pos hp, if_neg (by simp [hp])]
      rfl
    · rw [if_neg hp, if_pos (by simp [hp]), List.findIdx?_succ]
      cases hf : m.findIdx? p with
      | none =>
        rw [hf] at ih
        simpa using ih
      | some j =>
        rw [hf] at ih
        simpa using ih

/-- Pointwise view of a list insertion at position `p`. -/
theorem insert_getElem? {l v : List α} {p : Nat} (hp : p ≤ l.length) (i : Nat) :
    (l.take p ++ v ++ l.drop p)[i]? =
      if i < p then l[i]? else
      if i < p + v.length then v[i - p]? else l[i - v.length]? := by
  have hlen : (l.take p).length = p := by
    simp [List.length_take]; omega
  have hlen2 : (l.take p ++ v).length = p + v.length := by
    simp [hlen]
  rw [List.getElem?_append, List.getElem?_append, hlen2, hlen, List.getElem?_take,
    List.getElem?_drop]
  split_ifs <;> first | rfl | omega | (congr 1; omega)

/-- A chunk strictly before an inserted chunk is unchanged. -/
theorem sliceChunk_insert_lt {b v : List Nat} {p q : Nat}
    (hp : 32 * p ≤ b.length) (hv : v.length = 32) (hq : q < p) :
    sliceChunk (b.take (32 * p) ++ v ++ b.drop (32 * p)) q = sliceChunk b q := by
  apply sliceChunk_congr
  intro i hi
  rw [insert_getElem? hp]
  rw [if_pos (by omega)]

/-- The inserted chunk reads back as itself. -/
theorem sliceChunk_insert_self {b v : List Nat} {p : Nat}
    (hp : 32 * p ≤ b.length) (hv : v.length = 32) :
    sliceChunk (b.take (32 * p) ++ v ++ b.drop (32 * p)) p = v := by
  apply List.ext_getElem?
  intro n
  unfold sliceChunk
  rw [List.getElem?_take]
  by_cases hn : n < 32
  · rw [if_pos hn, List.getElem?_drop, insert_getElem? hp, if_neg (by omega),
      if_pos (by omega)]
    congr 1
    omega
  · rw [if_neg hn]
    exact (List.getElem?_eq_none (by omega)).symm

/-- A chunk strictly after an inserted chunk is the old chunk one position
earlier. -/
theorem sliceChunk_insert_gt {b v : List Nat} {p q : Nat}
    (hp : 32 * p ≤ b.length) (hv : v.length = 32) (hq : p < q) :
    sliceChunk (b.take (32 * p) ++ v ++ b.drop (32 * p)) q = sliceChunk b (q - 1) := by
  apply sliceChunk_congr
  intro i hi
  rw [insert_getElem? hp, if_neg (by omega), if_neg (by omega), hv]
  congr 1
  omega

/-- A non-empty cache whose byte buffer is too short for even one chunk
(constructible because the struct fields are public and its derived decoder
checks nothing). -/
def cacheNoBytes : TreeHashCache := ⟨[], [true], [], 0, 0⟩

/-- C5 (amended): `update` and `tree_hash_root` on an empty cache (as
produced by `Default`) fail with `CacheNotInitialized` for every item update
routine; on a non-empty cache whose byte buffer holds at least `HASHSIZE`
bytes — in particular any cache satisfying the alignment invariant —
`tree_hash_root` returns the first `HASHSIZE` bytes (chunk 0).  The original
claim omitted the byte-length requirement: a non-empty cache with fewer than
`HASHSIZE` bytes gets `NoBytesForRoot` instead. -/
theorem cache_not_initialized_correct :
    TreeHashCache.default.is_empty = true ∧
    (∀ (upd : TreeHashCache → Except Error TreeHashCache) (t : TreeHashCache),
      t.is_empty = true → TreeHashCache.update upd t = .error .CacheNotInitialized) ∧
    (∀ t : TreeHashCache, t.is_empty = true →
      t.tree_hash_root = .error .CacheNotInitialized) ∧
    (∀ t : TreeHashCache, t.is_empty = false → HASHSIZE ≤ t.bytes.length →
      t.tree_hash_root = .ok (t.bytes.take HASHSIZE)) := by
  refine ⟨rfl, ?_, ?_, ?_⟩
  · intro upd t h
    simp [TreeHashCache.update, h]
  · intro t h
    simp [TreeHashCache.tree_hash_root, h]
  · intro t h hl
    simp [TreeHashCache.tree_hash_root, h, hl]

/-- Witness for C5 at concrete inputs: the `Default` cache rejects `update`,
and a well-formed three-chunk cache yields its first chunk as root. -/
theorem cache_not_initialized_correct_witness :
    (TreeHashCache.default.is_empty = true ∧
      TreeHashCache.update (fun c => .ok c) TreeHashCache.default =
        .error .CacheNotInitialized) ∧
    (cache3.is_empty = false ∧ HASHSIZE ≤ cache3.bytes.length ∧
      cache3.tree_hash_root = .ok (cache3.bytes.take HASHSIZE)) :=
  ⟨⟨rfl, cache_not_initialized_correct.2.1 (fun c => .ok c) TreeHashCache.default rfl⟩,
   ⟨rfl, by decide,
    cache_not_initialized_correct.2.2.2 cache3 rfl (by decide)⟩⟩

/-- Counterexample to C5 as stated: a non-empty cache with an empty byte
buffer is constructible, and `tree_hash_root` returns `NoBytesForRoot`
rather than "the first HASHSIZE bytes of the cache's byte buffer". -/
theorem tree_hash_root_no_bytes :
    cacheNoBytes.is_empty = false ∧
    cacheNoBytes.tree_hash_root = .error .NoBytesForRoot :=
  ⟨rfl, rfl⟩

/-- C6: `from_bytes(bytes, dirty, schema?)` fails — and fails with exactly
`BytesAreNotEvenChunks(bytes.len())` — iff `bytes.len()` is not a multiple of
`HASHSIZE`; otherwise it succeeds with the given bytes unchanged, one flag
per chunk all equal to the initial state, the schema option as singleton or
empty schema list, and both counters zero. -/
theorem from_bytes_correct (bytes : List Nat) (b : Bool) (s : Option BTreeSchema) :
    (bytes.length % HASHSIZE ≠ 0 →
      TreeHashCache.from_bytes bytes b s = .error (.BytesAreNotEvenChunks bytes.length)) ∧
    (∀ e, TreeHashCache.from_bytes bytes b s = .error e →
      e = .BytesAreNotEvenChunks bytes.length ∧ bytes.length % HASHSIZE ≠ 0) ∧
    (bytes.length % HASHSIZE = 0 →
      ∃ t, TreeHashCache.from_bytes bytes b s = .ok t ∧
        t.bytes = bytes ∧
        t.chunk_modified.length = bytes.length / HASHSIZE ∧
        (∀ i, i < bytes.length / HASHSIZE → t.chunk_modified[i]? = some b) ∧
        t.schemas = (match s with | some x => [x] | none => []) ∧
        t.chunk_index = 0 ∧ t.schema_index = 0) := by
  unfold TreeHashCache.from_bytes
  by_cases hm : bytes.length % BYTES_PER_CHUNK > 0
  · rw [if_pos hm]
    refine ⟨fun _ => rfl, ?_, ?_⟩
    · intro e he
      cases he
      exact ⟨rfl, by simpa [HASHSIZE, BYTES_PER_CHUNK] using Nat.pos_iff_ne_zero.mp hm⟩
    · intro hz
      exact absurd hz (by simpa [HASHSIZE, BYTES_PER_CHUNK] using Nat.pos_iff_ne_zero.mp hm)
  · rw [if_neg hm]
    refine ⟨?_, ?_, ?_⟩
    · intro hz
      exact absurd (by simpa [HASHSIZE, BYTES_PER_CHUNK] using hm) hz
    · intro e he
      cases he
    · intro _
      refine ⟨_, rfl, rfl, by simp [HASHSIZE, BYTES_PER_CHUNK], ?_, rfl, rfl, rfl⟩
      intro i hi
      rw [List.getElem?_replicate]
      rw [if_pos (by simpa [HASHSIZE, BYTES_PER_CHUNK] using hi)]

/-- Witness for C6 at concrete inputs: one aligned success and one misaligned
failure. -/
theorem from_bytes_correct_witness :
    ((List.replicate 64 0).length % HASHSIZE = 0 ∧
      ∃ t, TreeHashCache.from_bytes (List.replicate 64 0) true none = .ok t ∧
        t.bytes = List.replicate 64 0 ∧
        t.chunk_modified.length = (List.replicate 64 (0 : Nat)).length / HASHSIZE ∧
        (∀ i, i < (List.replicate 64 (0 : Nat)).length / HASHSIZE →
          t.chunk_modified[i]? = some true) ∧
        t.schemas = [] ∧ t.chunk_index = 0 ∧ t.schema_index = 0) ∧
    ([0].length % HASHSIZE ≠ 0 ∧
      TreeHashCache.from_bytes [0] false none = .error (.BytesAreNotEvenChunks 1)) :=
  ⟨⟨by decide, (from_bytes_correct (List.replicate 64 0) true none).2.2 (by decide)⟩,
   ⟨by decide, (from_bytes_correct [0] false none).1 (by decide)⟩⟩

/-- C9: `previous()` on a request id with value `n ≥ 1` yields `n - 1`
without underflow, and at `0` the `u64` subtraction underflows (undefined
for callers, modelled as `none`); `increment` then `previous` is the
identity on every representable id, which is what "guarantee at least one
prior increment" buys the caller. -/
theorem request_id_previous_correct :
    (∀ n : Nat, 1 ≤ n → RequestId.previous ⟨n⟩ = some ⟨n - 1⟩) ∧
    RequestId.previous ⟨0⟩ = none ∧
    (∀ n : Nat, n + 1 < 2 ^ 64 →
      (RequestId.mk n).increment.previous = some ⟨n⟩) := by
  refine ⟨?_, rfl, ?_⟩
  · intro n hn
    simp [RequestId.previous, hn]
  · intro n hn
    simp only [RequestId.increment, RequestId.previous]
    rw [Nat.mod_eq_of_lt hn]
    simp

/-- Witness for C9 at concrete inputs. -/
theorem request_id_previous_correct_witness :
    (1 ≤ 5 ∧ RequestId.previous ⟨5⟩ = some ⟨4⟩) ∧
    RequestId.previous ⟨0⟩ = none ∧
    (3 + 1 < 2 ^ 64 ∧ (RequestId.mk 3).increment.previous = some ⟨3⟩) :=
  ⟨⟨by decide, request_id_previous_correct.1 5 (by decide)⟩,
   request_id_previous_correct.2.1,
   ⟨by decide, request_id_previous_correct.2.2 3 (by decide)⟩⟩

/-- The index found by `findIdx?` is within the list. -/
theorem findIdx?_lt_length {p : α → Bool} :
    ∀ (l : List α) (j : Nat), l.findIdx? p = some j → j < l.length := by
  intro l
  induction l with
  | nil => intro j h; cases h
  | cons a m ih =>
    intro j h
    rw [List.findIdx?_cons] at h
    by_cases hp : p a = true
    · rw [if_pos hp] at h
      cases h
      simp
    · rw [if_neg hp, List.findIdx?_succ] at h
      cases hf : m.findIdx? p with
      | none => rw [hf] at h; cases h
      | some i =>
        rw [hf] at h
        simp only [Option.map_some'] at h
        cases h
        have := ih i hf
        simp only [List.length_cons]
        omega

/-- A cache with three stored schemas at depths 2, 3, 1 (no chunks). -/
def cacheSchemas : TreeHashCache :=
  ⟨[], [], [⟨2, 1, false⟩, ⟨3, 1, false⟩, ⟨1, 1, false⟩], 0, 0⟩

/-- C7 (amended): for every cache, every `schema_index ≤ schemas.len()` and
every depth, `remove_proceeding_child_schemas` succeeds and removes exactly
the maximal run of schemas with depth strictly greater than the given depth
starting at `schema_index` (up to but excluding the first entry at or after
`schema_index` with depth ≤ the given depth, or the end of the list), leaving
every other schema and every other cache field unchanged.  The original
claim's "for every schema_index ... never fails" is refuted below: with
`schema_index > schemas.len()` the source's final `Vec::splice` panics. -/
theorem remove_proceeding_child_schemas_correct (t : TreeHashCache) (si d : Nat)
    (hsi : si ≤ t.schemas.length) :
    ∃ t', t.remove_proceeding_child_schemas si d = .ok t' ∧
      t'.schemas = t.schemas.take si ++
        (t.schemas.drop si).dropWhile (fun o => ! decide (o.depth ≤ d)) ∧
      t'.bytes = t.bytes ∧ t'.chunk_modified = t.chunk_modified ∧
      t'.chunk_index = t.chunk_index ∧ t'.schema_index = t.schema_index := by
  unfold TreeHashCache.remove_proceeding_child_schemas
  have key := drop_findIdx?_getD (fun o : BTreeSchema => decide (o.depth ≤ d))
    (t.schemas.drop si)
  cases hf : (t.schemas.drop si).findIdx? (fun o => decide (o.depth ≤ d)) with
  | some i =>
    rw [hf] at key
    have hi : i < (t.schemas.drop si).length := findIdx?_lt_length _ _ hf
    rw [List.length_drop] at hi
    dsimp only
    unfold vecSplice
    have hcond : si ≤ i + si ∧ i + si ≤ t.schemas.length := by
      constructor <;> omega
    rw [if_pos hcond]
    refine ⟨_, rfl, ?_, rfl, rfl, rfl, rfl⟩
    show t.schemas.take si ++ [] ++ t.schemas.drop (i + si) =
      t.schemas.take si ++ (t.schemas.drop si).dropWhile (fun o => ! decide (o.depth ≤ d))
    rw [List.append_nil, ← key]
    simp only [Option.getD_some]
    rw [List.drop_drop, Nat.add_comm]
  | none =>
    rw [hf] at key
    dsimp only
    unfold vecSplice
    have hcond : si ≤ t.schemas.length ∧ t.schemas.length ≤ t.schemas.length :=
      ⟨hsi, Nat.le_refl _⟩
    rw [if_pos hcond]
    refine ⟨_, rfl, ?_, rfl, rfl, rfl, rfl⟩
    show t.schemas.take si ++ [] ++ t.schemas.drop t.schemas.length =
      t.schemas.take si ++ (t.schemas.drop si).dropWhile (fun o => ! decide (o.depth ≤ d))
    rw [List.append_nil, ← key]
    simp only [Option.getD_none]
    rw [List.drop_drop, List.length_drop]
    have heq : si + (t.schemas.length - si) = t.schemas.length := by omega
    rw [heq]

/-- Witness for C7 at a concrete input: removing after index 1 with depth 2
drops exactly the depth-3 schema. -/
theorem remove_proceeding_child_schemas_correct_witness :
    1 ≤ cacheSchemas.schemas.length ∧
    ∃ t', cacheSchemas.remove_proceeding_child_schemas 1 2 = .ok t' ∧
      t'.schemas = cacheSchemas.schemas.take 1 ++
        (cacheSchemas.schemas.drop 1).dropWhile (fun o => ! decide (o.depth ≤ 2)) ∧
      t'.bytes = cacheSchemas.bytes ∧ t'.chunk_modified = cacheSchemas.chunk_modified ∧
      t'.chunk_index = cacheSchemas.chunk_index ∧
      t'.schema_index = cacheSchemas.schema_index :=
  ⟨by decide, remove_proceeding_child_schemas_correct cacheSchemas 1 2 (by decide)⟩

/-- Counterexample to C7 as stated: with `schema_index = 1` past the end of
an empty schema list, the operation does not succeed — the source's
`Vec::splice(1..0, [])` panics — contradicting "never fails for every
schema_index". -/
theorem remove_proceeding_child_schemas_panics :
    TreeHashCache.default.remove_proceeding_child_schemas 1 0 = .error .Panic := rfl

/-- Parsers that always fail, for witnesses. -/
def failParsers : RPCParsers :=
  ⟨fun _ => none, fun _ => none, fun _ => none, fun _ => none, fun _ => none,
   fun _ => none, fun _ => none, fun _ => none, fun _ => none, fun _ => none⟩

/-- A method table recognizing nothing, for witnesses. -/
def unknownOnly : Nat → RPCMethod := fun _ => .Unknown

/-- A method table mapping code 1 to `Goodbye`, for witnesses. -/
def goodbyeAt1 : Nat → RPCMethod := fun n => if n = 1 then .Goodbye else .Unknown

/-- C8: for every decoded packet, `decode` rejects every method code that the
method table does not recognize (maps to `Unknown`), rejects every response
packet carrying the `Goodbye` method code, and every successfully decoded
event preserves the packet's id and method code. -/
theorem decode_correct (P : RPCParsers) (mf : Nat → RPCMethod) (msg : SszContainer) :
    (mf msg.other = .Unknown → decode P mf msg = .error .UnknownRPCMethod) ∧
    (msg.is_request = false → mf msg.other = .Goodbye →
      decode P mf msg = .error .UnknownRPCMethod) ∧
    (∀ ev, decode P mf msg = .ok ev →
      ev.event_id = ⟨msg.id⟩ ∧ ev.method_id = msg.other) := by
  refine ⟨?_, ?_, ?_⟩
  · intro hu
    unfold decode
    rw [hu]
    split <;> rfl
  · intro hreq hgb
    unfold decode
    rw [hreq, hgb]
    rfl
  · intro ev hv
    unfold decode at hv
    split at hv <;> split at hv <;>
      first
      | cases hv
      | (obtain ⟨m, hm, hev⟩ := parseOr_ok hv
         subst hev
         exact ⟨rfl, rfl⟩)

/-- Witness for C8 at concrete inputs: an unrecognized code is rejected, and
a `Goodbye` response is rejected. -/
theorem decode_correct_witness :
    (unknownOnly 7 = .Unknown ∧
      decode failParsers unknownOnly ⟨true, 0, 7, []⟩ = .error .UnknownRPCMethod) ∧
    ((false : Bool) = false ∧ goodbyeAt1 1 = .Goodbye ∧
      decode failParsers goodbyeAt1 ⟨false, 3, 1, []⟩ = .error .UnknownRPCMethod) :=
  ⟨⟨rfl, (decode_correct failParsers unknownOnly ⟨true, 0, 7, []⟩).1 rfl⟩,
   ⟨rfl, rfl,
    (decode_correct failParsers goodbyeAt1 ⟨false, 3, 1, []⟩).2.1 rfl rfl⟩⟩

/-- A successful bind passes through a successful intermediate value. -/
theorem exists_of_bind_ok {α β : Type} {x : Except Error α}
    {f : α → Except Error β} {r : β} (h : (x >>= f) = .ok r) :
    ∃ a, x = .ok a ∧ f a = .ok r := by
  cases x with
  | error e =>
    rw [show ((Except.error e : Except Error α) >>= f) = Except.error e from rfl] at h
    cases h
  | ok a =>
    rw [show ((Except.ok a : Except Error α) >>= f) = f a from rfl] at h
    exact ⟨a, rfl, h⟩

/-- A successful explicit `Except.bind` passes through a successful
intermediate value. -/
theorem exists_of_except_bind_ok {α β : Type} {x : Except Error α}
    {f : α → Except Error β} {r : β} (h : Except.bind x f = .ok r) :
    ∃ a, x = .ok a ∧ f a = .ok r := by
  cases x with
  | error e =>
    rw [show Except.bind (Except.error e : Except Error α) f = Except.error e from rfl] at h
    cases h
  | ok a =>
    rw [show Except.bind (Except.ok a : Except Error α) f = f a from rfl] at h
    exact ⟨a, rfl, h⟩

/-- Every chunk produced by `growChunk` is exactly 32 bytes. -/
theorem growChunk_length (b : List Nat) (d j : Nat) : (growChunk b d j).length = 32 := by
  unfold growChunk
  dsimp only
  split
  next hc =>
    unfold sliceChunk
    rw [List.length_take, List.length_drop]
    exact inf_eq_left.mpr (by omega)
  next => simp

/-- Every chunk produced by `shrinkChunk` is exactly 32 bytes. -/
theorem shrinkChunk_length (b : List Nat) (d j : Nat) :
    (shrinkChunk b d j).length = 32 := by
  unfold shrinkChunk
  dsimp only
  split
  next hc =>
    unfold sliceChunk
    rw [List.length_take, List.length_drop]
    exact inf_eq_left.mpr (by omega)
  next => simp

/-- Length of a flattened list of uniform 32-byte chunks. -/
theorem flatten_map_length {N : Nat} {f : Nat → List Nat}
    (hf : ∀ j, (f j).length = 32) :
    ((List.range N).map f).flatten.length = 32 * N := by
  rw [List.length_flatten, List.map_map]
  have he : (List.length ∘ f) = fun _ => 32 := funext fun j => hf j
  rw [he, List.map_const', List.sum_replicate, List.length_range, smul_eq_mul,
    Nat.mul_comm]

/-- A grown internal region is chunk-aligned: the byte part is 32 times the
flag part. -/
theorem grow_merkle_tree_ok {ob : List Nat} {of : List Bool} {h0 h1 : Nat}
    {nb : List Nat} {nf : List Bool}
    (h : grow_merkle_tree ob of h0 h1 = some (nb, nf)) :
    nb.length = 32 * nf.length := by
  unfold grow_merkle_tree at h
  split at h
  next hc =>
    rw [Option.some.injEq, Prod.mk.injEq] at h
    obtain ⟨hb, hf⟩ := h
    subst hb
    subst hf
    rw [flatten_map_length (fun j => growChunk_length ob _ j)]
    rw [List.length_map, List.length_range]
  next => cases h

/-- A shrunk internal region is chunk-aligned. -/
theorem shrink_merkle_tree_ok {ob : List Nat} {of : List Bool} {h0 h1 : Nat}
    {nb : List Nat} {nf : List Bool}
    (h : shrink_merkle_tree ob of h0 h1 = some (nb, nf)) :
    nb.length = 32 * nf.length := by
  unfold shrink_merkle_tree at h
  split at h
  next hc =>
    rw [Option.some.injEq, Prod.mk.injEq] at h
    obtain ⟨hb, hf⟩ := h
    subst hb
    subst hf
    rw [flatten_map_length (fun j => shrinkChunk_length ob _ j)]
    rw [List.length_map, List.length_range]
  next => cases h

/-- Whatever branch a successful resize takes, it splices a chunk-aligned
region (bytes exactly 32 per flag) over the old internal range. -/
theorem replace_overlay_resize_ok {t t1 : TreeHashCache} {old no : BTreeOverlay}
    (h : replace_overlay_resize t old no = .ok t1) :
    ∃ nb nf, nb.length = 32 * nf.length ∧
      t.splice old.internal_chunk_range nb nf = .ok t1 := by
  unfold replace_overlay_resize at h
  obtain ⟨pr, hpr, h⟩ := exists_of_except_bind_ok h
  obtain ⟨nw, hnw, h⟩ := exists_of_except_bind_ok h
  obtain ⟨nwb, nwf⟩ := nw
  refine ⟨nwb, nwf, ?_, h⟩
  split at hnw
  next =>
    rw [Except.ok.injEq, Prod.mk.injEq] at hnw
    obtain ⟨hb, hf⟩ := hnw
    subst hb
    subst hf
    rfl
  next =>
    split at hnw
    next =>
      rw [Except.ok.injEq, Prod.mk.injEq] at hnw
      obtain ⟨hb, hf⟩ := hnw
      subst hb
      subst hf
      simp [HASHSIZE, Nat.mul_comm]
    next =>
      split at hnw
      next =>
        cases hg : grow_merkle_tree pr.1 pr.2 (old.height - 1) (no.height - 1) with
        | none => rw [hg] at hnw; cases hnw
        | some p =>
          rw [hg] at hnw
          obtain ⟨pb, pf⟩ := p
          rw [show exceptOfOption Error.UnableToGrowMerkleTree (some (pb, pf)) =
            Except.ok (pb, pf) from rfl, Except.ok.injEq, Prod.mk.injEq] at hnw
          obtain ⟨hb, hf⟩ := hnw
          subst hb
          subst hf
          exact grow_merkle_tree_ok hg
      next =>
        cases hg : shrink_merkle_tree pr.1 pr.2 (old.height - 1) (no.height - 1) with
        | none => rw [hg] at hnw; cases hnw
        | some p =>
          rw [hg] at hnw
          obtain ⟨pb, pf⟩ := p
          rw [show exceptOfOption Error.UnableToShrinkMerkleTree (some (pb, pf)) =
            Except.ok (pb, pf) from rfl, Except.ok.injEq, Prod.mk.injEq] at hnw
          obtain ⟨hb, hf⟩ := hnw
          subst hb
          subst hf
          exact shrink_merkle_tree_ok hg

/-- A cache holding one two-leaf schema and three chunks, for witnesses. -/
def cacheWithSchema : TreeHashCache :=
  ⟨List.replicate 96 0, [false, false, false], [⟨0, 2, false⟩], 0, 0⟩

/-- C3: whenever `replace_overlay(si, ci, new_overlay)` succeeds, the stored
schema at `si` is replaced by `new_overlay`'s schema with every other schema
entry and both counters unchanged, and the returned overlay is the previous
schema resolved at `ci`; when additionally `new_overlay` has the same
internal-node count as the old overlay, the byte buffer and the dirty bitmap
are completely unchanged. -/
theorem replace_overlay_correct (t : TreeHashCache) (si ci : Nat)
    (no : BTreeOverlay) (t' : TreeHashCache) (ret old : BTreeOverlay)
    (hold : t.get_overlay si ci = .ok old)
    (h : t.replace_overlay si ci no = .ok (t', ret)) :
    ret = old ∧
    t'.schemas = t.schemas.set si no.toSchema ∧
    t'.chunk_index = t.chunk_index ∧ t'.schema_index = t.schema_index ∧
    (no.num_internal_nodes = old.num_internal_nodes →
      t'.bytes = t.bytes ∧ t'.chunk_modified = t.chunk_modified) := by
  obtain ⟨s, hs, hoe⟩ := get_overlay_ok hold
  unfold TreeHashCache.replace_overlay at h
  rw [hold] at h
  obtain ⟨o2, ho2, h⟩ := exists_of_except_bind_ok h
  injection ho2 with ho2
  subst ho2
  obtain ⟨t1, ht1, h⟩ := exists_of_except_bind_ok h
  by_cases hni : no.num_internal_nodes = old.num_internal_nodes
  · rw [if_neg (by simp [hni])] at ht1
    injection ht1 with ht1
    subst ht1
    rw [hs] at h
    dsimp only at h
    rw [Except.ok.injEq, Prod.mk.injEq] at h
    obtain ⟨h1, h2⟩ := h
    subst h1
    subst h2
    exact ⟨hoe.symm, rfl, rfl, rfl, fun _ => ⟨rfl, rfl⟩⟩
  · rw [if_pos hni] at ht1
    obtain ⟨nb, nf, hlen, hsp'⟩ := replace_overlay_resize_ok ht1
    have hsp := splice_ok hsp'
    rw [hsp.2.2.2.2.2.1, hs] at h
    dsimp only at h
    rw [Except.ok.injEq, Prod.mk.injEq] at h
    obtain ⟨h1, h2⟩ := h
    subst h1
    subst h2
    exact ⟨hoe.symm, rfl, hsp.2.2.2.2.2.2.1, hsp.2.2.2.2.2.2.2,
      fun hx => absurd hx hni⟩

/-- Witness for C3 at a concrete input: replacing the stored two-leaf schema
by an overlay with the same schema (equal internal-node counts) succeeds and
leaves bytes, flags and the schema list unchanged. -/
theorem replace_overlay_correct_witness :
    (cacheWithSchema.get_overlay 0 0 = .ok overlay2 ∧
      cacheWithSchema.replace_overlay 0 0 overlay2 = .ok (cacheWithSchema, overlay2)) ∧
    (overlay2 = overlay2 ∧
      cacheWithSchema.schemas = cacheWithSchema.schemas.set 0 overlay2.toSchema ∧
      cacheWithSchema.chunk_index = cacheWithSchema.chunk_index ∧
      cacheWithSchema.schema_index = cacheWithSchema.schema_index ∧
      (overlay2.num_internal_nodes = overlay2.num_internal_nodes →
        cacheWithSchema.bytes = cacheWithSchema.bytes ∧
        cacheWithSchema.chunk_modified = cacheWithSchema.chunk_modified)) :=
  ⟨⟨by rfl, by rfl⟩,
   replace_overlay_correct cacheWithSchema 0 0 overlay2 cacheWithSchema
     overlay2 overlay2 (by rfl) (by rfl)⟩

/-- Insertion of `v` at position `p` (the effect of `Vec::splice(p..p, v)`). -/
def insertAt (l : List α) (p : Nat) (v : List α) : List α :=
  l.take p ++ v ++ l.drop p

/-- Length of `take` within bounds. -/
theorem length_take_of_le {l : List α} {n : Nat} (h : n ≤ l.length) :
    (l.take n).length = n := by
  rw [List.length_take]
  exact inf_eq_left.mpr h

/-- Length of an in-bounds insertion. -/
theorem insertAt_length {l v : List α} {p : Nat} (h : p ≤ l.length) :
    (insertAt l p v).length = l.length + v.length := by
  unfold insertAt
  simp only [List.length_append, List.length_drop, length_take_of_le h]
  omega

/-- `MaybeUpdateSpec` preserves the buffer sizes, schemas and counters. -/
theorem MaybeUpdateSpec_frame {s s' : TreeHashCache} {c : Nat} {v : List Nat}
    (h : MaybeUpdateSpec s c v s') :
    s'.bytes.length = s.bytes.length ∧
    s'.chunk_modified.length = s.chunk_modified.length ∧
    s'.schemas = s.schemas ∧ s'.chunk_index = s.chunk_index ∧
    s'.schema_index = s.schema_index := by
  obtain ⟨old, _, hrest⟩ := h
  by_cases he : old = v
  · rw [if_pos he] at hrest
    rw [hrest]
    exact ⟨rfl, rfl, rfl, rfl, rfl⟩
  · rw [if_neg he] at hrest
    exact ⟨hrest.2.2.2.2.1, hrest.2.2.2.2.2.1, hrest.2.2.2.2.2.2.1,
      hrest.2.2.2.2.2.2.2.1, hrest.2.2.2.2.2.2.2.2⟩

/-- `RehashStep` preserves the buffer sizes, schemas and counters. -/
theorem RehashStep_frame {hash : List Nat → List Nat} {s s' : TreeHashCache}
    {p l r : Nat} (h : RehashStep hash s s' p l r) :
    s'.bytes.length = s.bytes.length ∧
    s'.chunk_modified.length = s.chunk_modified.length ∧
    s'.schemas = s.schemas ∧ s'.chunk_index = s.chunk_index ∧
    s'.schema_index = s.schema_index := by
  obtain ⟨dl, dr, _, _, hrest⟩ := h
  by_cases hb : (dl || dr) = true
  · rw [if_pos hb] at hrest
    obtain ⟨cl, cr, _, _, _, _, _, _, h5, h6, h7, h8, h9⟩ := hrest
    exact ⟨h5, h6, h7, h8, h9⟩
  · rw [if_neg hb] at hrest
    rw [hrest]
    exact ⟨rfl, rfl, rfl, rfl, rfl⟩

/-- `mix_in_length` preserves the buffer sizes, schemas and counters. -/
theorem mix_in_length_frame {hash : List Nat → List Nat} {t t' : TreeHashCache}
    {r : Range} {n : Nat}
    (h : TreeHashCache.mix_in_length hash t r n = .ok t') :
    t'.bytes.length = t.bytes.length ∧
    t'.chunk_modified.length = t.chunk_modified.length ∧
    t'.schemas = t.schemas ∧ t'.chunk_index = t.chunk_index ∧
    t'.schema_index = t.schema_index := by
  obtain ⟨t1, hm, hs⟩ := mix_in_length_split h
  have h1 := MaybeUpdateSpec_frame (maybe_update_chunk_spec hm)
  have h2 := RehashStep_frame hs
  refine ⟨h2.1.trans h1.1, h2.2.1.trans h1.2.1, h2.2.2.1.trans h1.2.2.1,
    h2.2.2.2.1.trans h1.2.2.2.1, h2.2.2.2.2.trans h1.2.2.2.2⟩

/-- Structure of a successful `add_length_nodes`: the guards held, the
intermediate cache after the two insertions is explicit, and the final state
comes from `mix_in_length` on the shifted range. -/
theorem add_length_nodes_ok {hash : List Nat → List Nat} {t t' : TreeHashCache}
    {r : Range} {n : Nat}
    (h : TreeHashCache.add_length_nodes hash t r n = .ok t') :
    ∃ t2 : TreeHashCache,
      r.start < t.chunk_modified.length ∧
      r.stop * HASHSIZE ≤ t.bytes.length ∧
      r.stop ≤ t.chunk_modified.length ∧
      t2.bytes = insertAt (insertAt t.bytes (r.stop * HASHSIZE) (List.replicate HASHSIZE 0))
        (r.start * HASHSIZE) (List.replicate HASHSIZE 0) ∧
      t2.chunk_modified =
        insertAt (insertAt (t.chunk_modified.set r.start true) r.stop [false]) r.start [false] ∧
      t2.schemas = t.schemas ∧ t2.chunk_index = t.chunk_index ∧
      t2.schema_index = t.schema_index ∧
      TreeHashCache.mix_in_length hash t2 ⟨r.start + 1, r.stop + 1⟩ n = .ok t' := by
  unfold TreeHashCache.add_length_nodes at h
  split at h
  next hflag =>
    obtain ⟨b1, hb1, h⟩ := exists_of_bind_ok h
    obtain ⟨f1, hf1, h⟩ := exists_of_bind_ok h
    obtain ⟨b2, hb2, h⟩ := exists_of_bind_ok h
    obtain ⟨f2, hf2, h⟩ := exists_of_bind_ok h
    cases hvb1 : vecSplice t.bytes (r.stop * HASHSIZE) (r.stop * HASHSIZE)
        (List.replicate HASHSIZE 0) with
    | none => rw [hvb1] at hb1; cases hb1
    | some o1 =>
      rw [hvb1] at hb1
      rw [show exceptOfOption Error.Panic (some o1) = Except.ok o1 from rfl] at hb1
      injection hb1 with hb1
      subst hb1
      cases hvf1 : vecSplice (t.chunk_modified.set r.start true) r.stop r.stop [false] with
      | none => rw [hvf1] at hf1; cases hf1
      | some p1 =>
        rw [hvf1] at hf1
        rw [show exceptOfOption Error.Panic (some p1) = Except.ok p1 from rfl] at hf1
        injection hf1 with hf1
        subst hf1
        cases hvb2 : vecSplice o1 (r.start * HASHSIZE) (r.start * HASHSIZE)
            (List.replicate HASHSIZE 0) with
        | none => rw [hvb2] at hb2; cases hb2
        | some o2 =>
          rw [hvb2] at hb2
          rw [show exceptOfOption Error.Panic (some o2) = Except.ok o2 from rfl] at hb2
          injection hb2 with hb2
          subst hb2
          cases hvf2 : vecSplice p1 r.start r.start [false] with
          | none => rw [hvf2] at hf2; cases hf2
          | some p2 =>
            rw [hvf2] at hf2
            rw [show exceptOfOption Error.Panic (some p2) = Except.ok p2 from rfl] at hf2
            injection hf2 with hf2
            subst hf2
            obtain ⟨g1a, g1b, g1c⟩ := vecSplice_some hvb1
            obtain ⟨g2a, g2b, g2c⟩ := vecSplice_some hvf1
            obtain ⟨g3a, g3b, g3c⟩ := vecSplice_some hvb2
            obtain ⟨g4a, g4b, g4c⟩ := vecSplice_some hvf2
            rw [List.length_set] at g2b
            refine ⟨⟨o2, p2, t.schemas, t.chunk_index, t.schema_index⟩, hflag, g1b, g2b,
              ?_, ?_, rfl, rfl, rfl, h⟩
            · rw [g3c, g1c]
              rfl
            · rw [g4c, g2c]
              rfl
  next hflag => cases h

/-- C4: the alignment invariant — the byte buffer is whole chunks and the
dirty bitmap has exactly one flag per chunk — holds after `from_bytes`
unconditionally, and is preserved by every other listed operation that
succeeds: `splice` (under its stated preconditions), `modify_chunk`,
`maybe_update_chunk`, `add_length_nodes`, `mix_in_length`,
`reset_modifications` and `replace_overlay`. -/
theorem alignment_invariant_preserved :
    (∀ (bytes : List Nat) (b : Bool) (s : Option BTreeSchema) (t' : TreeHashCache),
      TreeHashCache.from_bytes bytes b s = .ok t' → CacheAligned t') ∧
    (∀ (t : TreeHashCache) (r : Range) (nb : List Nat) (nf : List Bool)
        (t' : TreeHashCache), CacheAligned t →
      nb.length = (r.stop - r.start) * HASHSIZE → nf.length = r.stop - r.start →
      t.splice r nb nf = .ok t' → CacheAligned t') ∧
    (∀ (t : TreeHashCache) (c : Nat) (v : List Nat) (t' : TreeHashCache),
      CacheAligned t → t.modify_chunk c v = .ok t' → CacheAligned t') ∧
    (∀ (t : TreeHashCache) (c : Nat) (v : List Nat) (t' : TreeHashCache),
      CacheAligned t → t.maybe_update_chunk c v = .ok t' → CacheAligned t') ∧
    (∀ (hash : List Nat → List Nat) (t : TreeHashCache) (r : Range) (n : Nat)
        (t' : TreeHashCache), CacheAligned t →
      TreeHashCache.add_length_nodes hash t r n = .ok t' → CacheAligned t') ∧
    (∀ (hash : List Nat → List Nat) (t : TreeHashCache) (r : Range) (n : Nat)
        (t' : TreeHashCache), CacheAligned t →
      TreeHashCache.mix_in_length hash t r n = .ok t' → CacheAligned t') ∧
    (∀ t : TreeHashCache, CacheAligned t → CacheAligned t.reset_modifications) ∧
    (∀ (t : TreeHashCache) (si ci : Nat) (no : BTreeOverlay) (t' : TreeHashCache)
        (ret : BTreeOverlay), CacheAligned t →
      t.replace_overlay si ci no = .ok (t', ret) → CacheAligned t') := by
  have hsplice : ∀ (t : TreeHashCache) (r : Range) (nb : List Nat) (nf : List Bool)
      (t' : TreeHashCache), CacheAligned t → nb.length = 32 * nf.length →
      t.splice r nb nf = .ok t' → CacheAligned t' := by
    intro t r nb nf t' ha hlen h
    have hs := splice_ok h
    have h1 := hs.1
    have h2 := hs.2.1
    have h3 := hs.2.2.1
    have hcm : t'.chunk_modified.length =
        r.start + nf.length + (t.chunk_modified.length - r.stop) := by
      rw [hs.2.2.2.1]
      simp only [List.length_append, List.length_drop,
        length_take_of_le (Nat.le_trans h1 h2)]
    have hby : t'.bytes.length =
        r.start * HASHSIZE + nb.length + (t.bytes.length - r.stop * HASHSIZE) := by
      rw [hs.2.2.2.2.1]
      simp only [List.length_append, List.length_drop,
        length_take_of_le (Nat.le_trans (Nat.mul_le_mul_right _ h1) h3)]
    obtain ⟨ha1, ha2⟩ := ha
    refine ⟨?_, ?_⟩ <;>
      simp only [HASHSIZE] at hby h3 ha1 ha2 ⊢ <;> omega
  refine ⟨?_, ?_, ?_, ?_, ?_, ?_, ?_, ?_⟩
  · intro bytes b s t' h
    unfold TreeHashCache.from_bytes at h
    split at h
    next => cases h
    next hm =>
      simp only [gt_iff_lt, Nat.not_lt, Nat.le_zero, BYTES_PER_CHUNK] at hm
      cases h
      constructor
      · simpa [HASHSIZE] using hm
      · simp only [List.length_replicate, HASHSIZE, BYTES_PER_CHUNK]
        omega
  · intro t r nb nf t' ha hbn hfn h
    refine hsplice t r nb nf t' ha ?_ h
    rw [hbn, hfn]
    simp [HASHSIZE, Nat.mul_comm]
  · intro t c v t' ha h
    have hs := modify_chunk_spec h
    obtain ⟨ha1, ha2⟩ := ha
    exact ⟨by rw [hs.2.2.2.2.1]; exact ha1, by rw [hs.2.2.2.2.1, hs.2.2.2.2.2.1]; exact ha2⟩
  · intro t c v t' ha h
    have hs := MaybeUpdateSpec_frame (maybe_update_chunk_spec h)
    obtain ⟨ha1, ha2⟩ := ha
    exact ⟨by rw [hs.1]; exact ha1, by rw [hs.1, hs.2.1]; exact ha2⟩
  · intro hash t r n t' ha h
    obtain ⟨t2, hf, hb, hc, ht2b, ht2f, _, _, _, hmix⟩ := add_length_nodes_ok h
    have hfr := mix_in_length_frame hmix
    obtain ⟨ha1, ha2⟩ := ha
    simp only [HASHSIZE] at hb ha1 ha2 ht2b ht2f
    have h2b : t2.bytes.length = t.bytes.length + 64 := by
      rw [ht2b, insertAt_length (by
          rw [insertAt_length hb]
          simp only [List.length_replicate, HASHSIZE]
          omega),
        insertAt_length hb]
      simp only [List.length_replicate, HASHSIZE]
    have h2f : t2.chunk_modified.length = t.chunk_modified.length + 2 := by
      rw [ht2f, insertAt_length (by
          rw [insertAt_length (by rw [List.length_set]; exact hc), List.length_set]
          simp only [List.length_singleton]
          omega),
        insertAt_length (by rw [List.length_set]; exact hc), List.length_set]
      simp only [List.length_singleton]
    refine ⟨?_, ?_⟩
    · rw [hfr.1, h2b]
      simp only [HASHSIZE]
      omega
    · rw [hfr.1, hfr.2.1, h2b, h2f]
      simp only [HASHSIZE]
      omega
  · intro hash t r n t' ha h
    have hfr := mix_in_length_frame h
    obtain ⟨ha1, ha2⟩ := ha
    exact ⟨by rw [hfr.1]; exact ha1, by rw [hfr.1, hfr.2.1]; exact ha2⟩
  · intro t ha
    obtain ⟨ha1, ha2⟩ := ha
    exact ⟨ha1, by simpa [TreeHashCache.reset_modifications] using ha2⟩
  · intro t si ci no t' ret ha h
    unfold TreeHashCache.replace_overlay at h
    obtain ⟨o2, ho2, h⟩ := exists_of_except_bind_ok h
    obtain ⟨t1, ht1, h⟩ := exists_of_except_bind_ok h
    have ht1a : CacheAligned t1 := by
      by_cases hni : no.num_internal_nodes = o2.num_internal_nodes
      · rw [if_neg (by simp [hni])] at ht1
        injection ht1 with ht1
        rw [← ht1]
        exact ha
      · rw [if_pos hni] at ht1
        obtain ⟨nb, nf, hlen, hsp'⟩ := replace_overlay_resize_ok ht1
        exact hsplice t _ nb nf t1 ha hlen hsp'
    cases hms : t1.schemas[si]? with
    | none => rw [hms] at h; cases h
    | some os =>
      rw [hms] at h
      dsimp only at h
      rw [Except.ok.injEq, Prod.mk.injEq] at h
      obtain ⟨h1, h2⟩ := h
      subst h1
      exact ht1a

/-- Witness for C4 at concrete inputs: a fresh `from_bytes` cache is aligned,
and alignment survives a no-op `mix_in_length` and `reset_modifications` on a
well-formed three-chunk cache. -/
theorem alignment_invariant_preserved_witness :
    (TreeHashCache.from_bytes (List.replicate 64 7) false none =
        .ok ⟨List.replicate 64 7, [false, false], [], 0, 0⟩ ∧
      CacheAligned (⟨List.replicate 64 7, [false, false], [], 0, 0⟩ : TreeHashCache)) ∧
    (CacheAligned cache3 ∧
      TreeHashCache.mix_in_length hashOnes cache3 ⟨1, 2⟩ 0 = .ok cache3 ∧
      CacheAligned cache3.reset_modifications) :=
  ⟨⟨by rfl,
    alignment_invariant_preserved.1 (List.replicate 64 7) false none
      ⟨List.replicate 64 7, [false, false], [], 0, 0⟩ (by rfl)⟩,
   ⟨⟨rfl, rfl⟩, by rfl,
    alignment_invariant_preserved.2.2.2.2.2.2.1 cache3 ⟨rfl, rfl⟩⟩⟩

/-- Pointwise view of `insertAt`. -/
theorem insertAt_getElem? {l v : List α} {p : Nat} (hp : p ≤ l.length) (i : Nat) :
    (insertAt l p v)[i]? =
      if i < p then l[i]? else
      if i < p + v.length then v[i - p]? else l[i - v.length]? :=
  insert_getElem? hp i

/-- A chunk strictly before a chunk-aligned insertion is unchanged. -/
theorem sliceChunk_insertAt_lt {b v : List Nat} {p q : Nat}
    (hp : 32 * p ≤ b.length) (hv : v.length = 32) (hq : q < p) :
    sliceChunk (insertAt b (32 * p) v) q = sliceChunk b q :=
  sliceChunk_insert_lt hp hv hq

/-- The chunk inserted by a chunk-aligned insertion reads back as itself. -/
theorem sliceChunk_insertAt_self {b v : List Nat} {p : Nat}
    (hp : 32 * p ≤ b.length) (hv : v.length = 32) :
    sliceChunk (insertAt b (32 * p) v) p = v :=
  sliceChunk_insert_self hp hv

/-- A chunk strictly after a chunk-aligned insertion is the old chunk one
position earlier. -/
theorem sliceChunk_insertAt_gt {b v : List Nat} {p q : Nat}
    (hp : 32 * p ≤ b.length) (hv : v.length = 32) (hq : p < q) :
    sliceChunk (insertAt b (32 * p) v) q = sliceChunk b (q - 1) :=
  sliceChunk_insert_gt hp hv hq

/-- C10 (amended): for a non-empty `chunk_range` (`start < stop`), a
successful `add_length_nodes(range, len)` always overwrites the newly
inserted chunk preceding the shifted range — position `range.start` — with
`hash(data_root ‖ length_le32)` and marks it dirty, even when neither the
data root's bytes nor the length chunk changed (because the data root's flag
is forced on before the insertion); the inserted length chunk at
`range.stop + 1` ends dirty exactly when its value `length_le32` differs
from the zero chunk it was inserted as.  The original claim, which put no
lower bound on the range, fails for an empty range (see the counterexample):
there the pre-marked chunk is the one after the inserted pair, so with
`len = 0` nothing dirties the new root chunk. -/
theorem add_length_nodes_correct (hash : List Nat → List Nat) (t : TreeHashCache)
    (r : Range) (n : Nat) (t' : TreeHashCache) (hlt : r.start < r.stop)
    (h : TreeHashCache.add_length_nodes hash t r n = .ok t') :
    t'.changed r.start = .ok true ∧
    (∃ root, t.get_chunk r.start = .ok root ∧
      t'.get_chunk r.start = .ok (hash (root ++ int_to_bytes32 n))) ∧
    t'.changed (r.stop + 1) = .ok (decide (int_to_bytes32 n ≠ List.replicate 32 0)) := by
  obtain ⟨t2, hfl, hb, hc, ht2b, ht2f, ht2s, ht2ci, ht2si, hmix⟩ := add_length_nodes_ok h
  simp only [HASHSIZE] at hb ht2b ht2f
  rw [show r.stop * 32 = 32 * r.stop from Nat.mul_comm _ _,
      show r.start * 32 = 32 * r.start from Nat.mul_comm _ _] at ht2b
  have hzlen : (List.replicate 32 (0 : Nat)).length = 32 := by simp
  have hB1len : (insertAt t.bytes (32 * r.stop) (List.replicate 32 0)).length =
      t.bytes.length + 32 := by
    rw [insertAt_length (by omega), hzlen]
  have hB2len : t2.bytes.length = t.bytes.length + 64 := by
    rw [ht2b, insertAt_length (by rw [hB1len]; omega), hB1len, hzlen]
  have hF1len : (insertAt (t.chunk_modified.set r.start true) r.stop [false]).length =
      t.chunk_modified.length + 1 := by
    rw [insertAt_length (by rw [List.length_set]; exact hc), List.length_set]
    rfl
  have hchunk_stop1 : sliceChunk t2.bytes (r.stop + 1) = List.replicate 32 0 := by
    rw [ht2b, sliceChunk_insertAt_gt (by rw [hB1len]; omega) hzlen (by omega),
      Nat.add_sub_cancel]
    exact sliceChunk_insertAt_self (by omega) hzlen
  have hchunk_start1 : sliceChunk t2.bytes (r.start + 1) = sliceChunk t.bytes r.start := by
    rw [ht2b, sliceChunk_insertAt_gt (by rw [hB1len]; omega) hzlen (by omega),
      Nat.add_sub_cancel]
    exact sliceChunk_insertAt_lt (by omega) hzlen hlt
  have hflag_start1 : t2.chunk_modified[r.start + 1]? = some true := by
    rw [ht2f, insertAt_getElem? (by rw [hF1len]; omega), if_neg (by omega)]
    rw [show ([false] : List Bool).length = 1 from rfl, if_neg (by omega),
      Nat.add_sub_cancel]
    rw [insertAt_getElem? (by rw [List.length_set]; exact hc), if_pos hlt]
    exact List.getElem?_set_self hfl
  have hflag_stop1 : t2.chunk_modified[r.stop + 1]? = some false := by
    rw [ht2f, insertAt_getElem? (by rw [hF1len]; omega), if_neg (by omega)]
    rw [show ([false] : List Bool).length = 1 from rfl, if_neg (by omega),
      Nat.add_sub_cancel]
    rw [insertAt_getElem? (by rw [List.length_set]; exact hc), if_neg (by omega)]
    rw [show ([false] : List Bool).length = 1 from rfl, if_pos (by omega)]
    simp
  have ht2c_start1 : t2.changed (r.start + 1) = .ok true := by
    simp [TreeHashCache.changed, hflag_start1]
  have ht2c_stop1 : t2.changed (r.stop + 1) = .ok false := by
    simp [TreeHashCache.changed, hflag_stop1]
  have hg_stop1 : t2.get_chunk (r.stop + 1) = .ok (List.replicate 32 0) := by
    unfold TreeHashCache.get_chunk
    rw [if_pos (by rw [hB2len]; omega), hchunk_stop1]
  have hg_start1 : t2.get_chunk (r.start + 1) = .ok (sliceChunk t.bytes r.start) := by
    unfold TreeHashCache.get_chunk
    rw [if_pos (by rw [hB2len]; omega), hchunk_start1]
  have hroot : t.get_chunk r.start = .ok (sliceChunk t.bytes r.start) := by
    unfold TreeHashCache.get_chunk
    rw [if_pos (by omega)]
  obtain ⟨t1, hm, hstep⟩ := mix_in_length_split hmix
  have hmu := maybe_update_chunk_spec hm
  obtain ⟨old, hold, hrest⟩ := hmu
  rw [hg_stop1] at hold
  injection hold with hold
  subst hold
  have hne1 : r.start + 1 ≠ r.stop + 1 := by omega
  have ht1c_start1 : t1.changed (r.start + 1) = .ok true := by
    by_cases hz : List.replicate 32 0 = int_to_bytes32 n
    · rw [if_pos hz] at hrest
      rw [hrest]
      exact ht2c_start1
    · rw [if_neg hz] at hrest
      rw [hrest.2.2.2.1 _ hne1]
      exact ht2c_start1
  have ht1c_stop1 : t1.changed (r.stop + 1) =
      .ok (decide (int_to_bytes32 n ≠ List.replicate 32 0)) := by
    by_cases hz : List.replicate 32 0 = int_to_bytes32 n
    · rw [if_pos hz] at hrest
      rw [hrest, ht2c_stop1]
      congr 1
      exact (decide_eq_false (fun hco => hco hz.symm)).symm
    · rw [if_neg hz] at hrest
      rw [hrest.2.1]
      congr 1
      exact (decide_eq_true (Ne.symm hz)).symm
  have ht1g_start1 : t1.get_chunk (r.start + 1) = .ok (sliceChunk t.bytes r.start) := by
    by_cases hz : List.replicate 32 0 = int_to_bytes32 n
    · rw [if_pos hz] at hrest
      rw [hrest]
      exact hg_start1
    · rw [if_neg hz] at hrest
      rw [hrest.2.2.1 _ hne1]
      exact hg_start1
  have ht1g_stop1 : t1.get_chunk (r.stop + 1) = .ok (int_to_bytes32 n) := by
    by_cases hz : List.replicate 32 0 = int_to_bytes32 n
    · rw [if_pos hz] at hrest
      rw [hrest, ← hz]
      exact hg_stop1
    · rw [if_neg hz] at hrest
      exact hrest.1
  obtain ⟨dl, dr, hdl, hdr, hsr⟩ := hstep
  rw [ht1c_start1] at hdl
  injection hdl with hdl
  subst hdl
  rw [if_pos (by simp)] at hsr
  obtain ⟨cl, cr, hcl, hcr, hp1, hp2, hfother, hgother, _, _, _, _, _⟩ := hsr
  rw [ht1g_start1] at hcl
  injection hcl with hcl
  subst hcl
  rw [ht1g_stop1] at hcr
  injection hcr with hcr
  subst hcr
  rw [Nat.add_sub_cancel] at hp1 hp2 hfother hgother
  refine ⟨hp1, ⟨sliceChunk t.bytes r.start, hroot, hp2⟩, ?_⟩
  rw [hfother _ (by omega)]
  exact ht1c_stop1

/-- A two-chunk, all-clean, all-zero cache. -/
def cacheTwo : TreeHashCache := ⟨List.replicate 64 0, [false, false], [], 0, 0⟩

/-- The cache produced by `add_length_nodes` on `cacheTwo` over `0..2` with
length `1` under the constant-ones hash. -/
def cacheTwoAfter : TreeHashCache :=
  ⟨List.replicate 32 1 ++ List.replicate 64 0 ++ int_to_bytes32 1,
   [true, true, false, true], [], 0, 0⟩

/-- A one-chunk, all-clean, all-zero cache. -/
def cacheOne : TreeHashCache := ⟨List.replicate 32 0, [false], [], 0, 0⟩

set_option maxRecDepth 4000 in
/-- Witness for C10 at a concrete input: adding length nodes around the full
two-chunk range with length `1` dirties and rehashes the new root chunk and
dirties the length chunk (whose value differs from zero). -/
theorem add_length_nodes_correct_witness :
    ((0 : Nat) < 2 ∧
      TreeHashCache.add_length_nodes hashOnes cacheTwo ⟨0, 2⟩ 1 = .ok cacheTwoAfter) ∧
    (cacheTwoAfter.changed 0 = .ok true ∧
      (∃ root, cacheTwo.get_chunk 0 = .ok root ∧
        cacheTwoAfter.get_chunk 0 = .ok (hashOnes (root ++ int_to_bytes32 1))) ∧
      cacheTwoAfter.changed 3 = .ok (decide (int_to_bytes32 1 ≠ List.replicate 32 0))) :=
  ⟨⟨by decide, by rfl⟩,
   add_length_nodes_correct hashOnes cacheTwo ⟨0, 2⟩ 1 cacheTwoAfter
     (by decide) (by rfl)⟩

set_option maxRecDepth 4000 in
/-- Counterexample to C10 as stated: on an empty range (`0..0`) with length
`0`, `add_length_nodes` succeeds but the newly inserted chunk at position 0
— the chunk preceding the (shifted, empty) range — is left clean and still
zero: it is neither overwritten with a hash nor marked dirty, because the
flag forced on before the insertions belongs to the original chunk, which an
empty range does not cover. -/
theorem add_length_nodes_empty_range_not_dirtied :
    TreeHashCache.add_length_nodes hashOnes cacheOne ⟨0, 0⟩ 0 =
      .ok ⟨List.replicate 96 0, [false, false, true], [], 0, 0⟩ ∧
    TreeHashCache.changed ⟨List.replicate 96 0, [false, false, true], [], 0, 0⟩ 0 =
      .ok false ∧
    TreeHashCache.get_chunk ⟨List.replicate 96 0, [false, false, true], [], 0, 0⟩ 0 =
      .ok (List.replicate 32 0) :=
  ⟨by rfl, by rfl, by rfl⟩
